import Mathlib

set_option maxHeartbeats 1000000
set_option maxRecDepth 100000

/- Verification of the FBHanoi breadth-first Tower of Hanoi solver
   (src/FBHanoi.cpp).  The definitions below are a shallow embedding of
   the C++ source: a configuration is a list of peg indices (entry i is
   the 0-based peg currently holding disk i; an index i blocks exactly
   the disks with larger index, as in the source predicates), a Vertex
   mirrors Graph::Vertex, and BuildAndExplore mirrors
   Graph::BuildAndExplore, with an explicit fuel parameter standing for
   the unbounded C++ while loop (the source loop has no bound; fuel
   exhaustion and the empty-frontier fall-through are both modelled as
   the result none). -/

/-- BFS colours, as in the VertexColor enum (White/Grey/Black). -/
inductive VColor where
  | white
  | grey
  | black
deriving DecidableEq, Repr

/-- Mirror of Graph::Vertex.  The C++ index field always equals the
    position of the vertex in vtxList (indices are assigned as
    numVertices++ on push_back), so positions stand for indices here.
    The edgeList is a list of vertex indices, most recently added
    first, exactly as the source prepends Edge nodes. -/
structure Vertex where
  color : VColor
  distance : Nat
  pred : Option Nat
  lastMove : Nat × Nat
  edges : List Nat
  state : List Nat
deriving DecidableEq, Repr

/-- The all-zero vertex produced by memset in Graph::GetVertex. -/
def vdefault : Vertex := ⟨VColor.white, 0, none, (0, 0), [], []⟩

/-- Read a vertex by index (all accesses in the source are in range). -/
def getV (vl : List Vertex) (i : Nat) : Vertex := vl.getD i vdefault

/-- Replace vertex i by a function of its old value (in-place update
    through a Vertex pointer in the source). -/
def updateV (vl : List Vertex) (i : Nat) (f : Vertex → Vertex) : List Vertex :=
  vl.set i (f (getV vl i))

/-- Mirror of the linear scan in Graph::GetVertex: index of the first
    vertex whose state equals s.  (The source compares with std::equal
    over state vectors, which all have length numDisks.) -/
def findVertexIdx : List Vertex → List Nat → Option Nat
  | [], _ => none
  | v :: rest, s => if v.state == s then some 0 else (findVertexIdx rest s).map (· + 1)

/-- Mirror of Graph::GetVertex: look up a state, creating a fresh
    white vertex at the end of the list when absent. -/
def getVertex (vl : List Vertex) (s : List Nat) : List Vertex × Nat :=
  match findVertexIdx vl s with
  | some n => (vl, n)
  | none => (vl ++ [{ vdefault with state := s }], vl.length)

/-- Prepend index j to the edge list of vertex i (edge1/edge2 insertion
    in BuildAndExplore). -/
def addEdge (vl : List Vertex) (i j : Nat) : List Vertex :=
  updateV vl i (fun v => { v with edges := j :: v.edges })

/-- Overwrite the colour of vertex i. -/
def setColor (vl : List Vertex) (i : Nat) (col : VColor) : List Vertex :=
  updateV vl i (fun v => { v with color := col })

/-- Mirror of PegHasSmallerDisk: some disk with index below diskRad
    sits on peg. -/
def PegHasSmallerDisk (state : List Nat) (diskRad peg : Nat) : Bool :=
  (List.range diskRad).any (fun i => state.getD i 0 == peg)

/-- Mirror of DiskNotSmallestOnPeg: some disk with index below diskRad
    shares diskRad's peg. -/
def DiskNotSmallestOnPeg (state : List Nat) (diskRad : Nat) : Bool :=
  (List.range diskRad).any (fun i => state.getD i 0 == state.getD diskRad 0)

/-- The (diskRad, peg) pairs generated by the two nested loops of
    BuildAndExplore for one dequeued state, in source order: disk index
    ascending, then peg index ascending, skipping a disk that is not
    smallest on its peg and a peg that equals the disk's peg or already
    holds a smaller disk. -/
def neighborMoves (numPegs : Nat) (state : List Nat) : List (Nat × Nat) :=
  (List.range state.length).flatMap (fun d =>
    if DiskNotSmallestOnPeg state d then []
    else ((List.range numPegs).filter
        (fun p => !(p == state.getD d 0) && !(PegHasSmallerDisk state d p))).map
      (fun p => (d, p)))

/-- One iteration of the inner loop body of BuildAndExplore for the
    move m = (diskRad, peg): synthesize the neighbour state, get or
    create its vertex, prepend the two edges, and, when the neighbour
    is still white, set its predecessor, distance, colour and lastMove
    (1-based pegs) and append it to the BFS queue. -/
def processMove (curIdx : Nat) (curState : List Nat) (acc : List Vertex × List Nat)
    (m : Nat × Nat) : List Vertex × List Nat :=
  let newState := curState.set m.1 m.2
  let pr := getVertex acc.1 newState
  let vl2 := addEdge pr.1 curIdx pr.2
  let vl3 := addEdge vl2 pr.2 curIdx
  if (getV vl3 pr.2).color = VColor.white then
    (updateV vl3 pr.2 (fun v =>
        { v with
          pred := some curIdx,
          distance := (getV vl3 curIdx).distance + 1,
          color := VColor.grey,
          lastMove := (curState.getD m.1 0 + 1, m.2 + 1) }),
      acc.2 ++ [pr.2])
  else (vl3, acc.2)

/-- Processing of one dequeued vertex: fold the inner loop body over
    all generated moves, then mark the vertex black. -/
def exploreVertex (numPegs curIdx : Nat) (vl : List Vertex) (q : List Nat) :
    List Vertex × List Nat :=
  let curState := (getV vl curIdx).state
  let acc := (neighborMoves numPegs curState).foldl (processMove curIdx curState) (vl, q)
  (setColor acc.1 curIdx VColor.black, acc.2)

/-- The while loop of BuildAndExplore.  none models both fuel
    exhaustion (an artifact of the embedding; the C++ loop is
    unbounded) and the empty-frontier fall-through, where the C++
    function ends without a return value. -/
def bfsLoop (numPegs : Nat) (endState : List Nat) :
    Nat → List Vertex → List Nat → Option (Nat × List Vertex)
  | 0, _, _ => none
  | _ + 1, _, [] => none
  | fuel + 1, vl, c :: rest =>
    let res := exploreVertex numPegs c vl rest
    if (getV res.1 c).state == endState then some ((getV res.1 c).distance, res.1)
    else bfsLoop numPegs endState fuel res.1 res.2

/-- Mirror of Graph::BuildAndExplore: create the start vertex in an
    empty graph, colour it grey, seed the queue with it, and run the
    BFS loop.  Returns the distance of the dequeued vertex whose state
    equals endState, together with the final vertex list. -/
def BuildAndExplore (numPegs fuel : Nat) (startState endState : List Nat) :
    Option (Nat × List Vertex) :=
  let pr := getVertex [] startState
  let vl := setColor pr.1 pr.2 VColor.grey
  bfsLoop numPegs endState fuel vl [pr.2]

/-- Mirror of the predecessor walk in main: follow the predecessor
    link k times from vertex idx; none when a link is missing (the
    C++ code would dereference a null predecessor there). -/
def predIterOpt (vl : List Vertex) : Nat → Nat → Option Nat
  | 0, idx => some idx
  | k + 1, idx =>
    match (getV vl idx).pred with
    | some j => predIterOpt vl k j
    | none => none

/-- Mirror of the path reconstruction in main: walk k predecessor
    links from vertex idx, collecting each visited vertex's lastMove;
    the forward list built with push_front makes the moves come out in
    chronological order, oldest first. -/
def reconstructOpt (vl : List Vertex) : Nat → Nat → Option (List (Nat × Nat))
  | 0, _ => some []
  | k + 1, idx =>
    match (getV vl idx).pred with
    | some j => (reconstructOpt vl k j).map (fun ms => ms ++ [(getV vl idx).lastMove])
    | none => none

/-- Mirror of main after input reading: run the search, look the goal
    vertex up again with the GetVertex scan, and reconstruct the move
    list.  There is no input-validation branch, because main performs
    none. -/
def mainModel (numPegs fuel : Nat) (startState endState : List Nat) :
    Option (Nat × List (Nat × Nat)) :=
  match BuildAndExplore numPegs fuel startState endState with
  | none => none
  | some (numMoves, vl) =>
    match findVertexIdx vl endState with
    | none => none
    | some g => (reconstructOpt vl numMoves g).map (fun ms => (numMoves, ms))

/-- First index (= smallest disk) sitting on the given peg.  Used by
    the replay checker below. -/
def firstIdxOn : List Nat → Nat → Option Nat
  | [], _ => none
  | x :: rest, peg =>
    if x == peg then some 0 else (firstIdxOn rest peg).map (· + 1)

/-- Modelled from the spec: the replay check of section 8 (not code of
    src/FBHanoi.cpp).  Apply a printed (sourcePeg, destPeg) pair,
    1-based as in the output: the moved disk is the topmost (first
    index) on the source peg, and the move is accepted only if the
    destination differs from the source and holds no smaller disk. -/
def applyMove (state : List Nat) (mv : Nat × Nat) : Option (List Nat) :=
  let src := mv.1 - 1
  let dst := mv.2 - 1
  match firstIdxOn state src with
  | none => none
  | some d =>
    if dst == src || PegHasSmallerDisk state d dst then none
    else some (state.set d dst)

/-- Modelled from the spec: replay a whole move list from a state. -/
def replay : List Nat → List (Nat × Nat) → Option (List Nat)
  | s, [] => some s
  | s, mv :: ms =>
    match applyMove s mv with
    | none => none
    | some s' => replay s' ms

/-- Number of black (settled) vertices. -/
def blackCount : List Vertex → Nat
  | [] => 0
  | v :: rest => (if v.color = VColor.black then 1 else 0) + blackCount rest

/-- The legality conditions of a single move, exactly the conditions
    checked by DiskNotSmallestOnPeg / PegHasSmallerDisk and the two
    loops of BuildAndExplore, in propositional form. -/
def MoveOK (numPegs : Nat) (s : List Nat) (d p : Nat) : Prop :=
  d < s.length ∧ p < numPegs ∧ p ≠ s.getD d 0 ∧
    (∀ i, i < d → s.getD i 0 ≠ s.getD d 0) ∧ (∀ i, i < d → s.getD i 0 ≠ p)

/-- One legal move between configurations. -/
def Step (numPegs : Nat) (s t : List Nat) : Prop :=
  ∃ d p, MoveOK numPegs s d p ∧ t = s.set d p

/-- Reachability in the legal-move graph. -/
def Reaches (numPegs : Nat) : List Nat → List Nat → Prop :=
  Relation.ReflTransGen (Step numPegs)

/-- Numeric rank of a colour, for stating monotone transitions. -/
def colorRank : VColor → Nat
  | VColor.white => 0
  | VColor.grey => 1
  | VColor.black => 2

/-- Colour order white ≤ grey ≤ black (transitions never go back). -/
def colorLE (a b : VColor) : Prop := colorRank a ≤ colorRank b

/-- All vertex fields other than the edge list agree. -/
def fieldsEq (a b : Vertex) : Prop :=
  a.state = b.state ∧ a.distance = b.distance ∧ a.pred = b.pred ∧
    a.lastMove = b.lastMove ∧ a.color = b.color

/-- Predecessor-chain well-formedness of one vertex: vertex 0 is the
    start (no predecessor, distance 0); any other vertex was discovered
    from its predecessor by a legal move recorded in lastMove, with
    distance one larger. -/
def ChainOK (numPegs : Nat) (vl : List Vertex) (i : Nat) : Prop :=
  (i = 0 → (getV vl i).pred = none ∧ (getV vl i).distance = 0) ∧
  (i ≠ 0 → ∃ j, j < vl.length ∧ (getV vl i).pred = some j ∧
    (getV vl j).distance + 1 = (getV vl i).distance ∧
    ∃ d p, MoveOK numPegs (getV vl j).state d p ∧
      (getV vl i).state = (getV vl j).state.set d p ∧
      (getV vl i).lastMove = ((getV vl j).state.getD d 0 + 1, p + 1))

/-- Core invariant of the vertex list during the search. -/
structure InvCore (numPegs : Nat) (startState : List Nat) (vl : List Vertex) : Prop where
  len_pos : 0 < vl.length
  start0 : (getV vl 0).state = startState
  states_len : ∀ i, i < vl.length → (getV vl i).state.length = startState.length
  states_bound : ∀ i, i < vl.length → ∀ x ∈ (getV vl i).state, x < numPegs
  states_nodup : ∀ i j, i < vl.length → j < vl.length →
    (getV vl i).state = (getV vl j).state → i = j
  colors : ∀ i, i < vl.length → (getV vl i).color ≠ VColor.white
  chain : ∀ i, i < vl.length → ChainOK numPegs vl i
  black_closed : ∀ i, i < vl.length → (getV vl i).color = VColor.black →
    ∀ m ∈ neighborMoves numPegs (getV vl i).state,
      ∃ j, j < vl.length ∧ (getV vl j).state = (getV vl i).state.set m.1 m.2
  edge_sym : ∀ i j, ((getV vl i).edges).count j = ((getV vl j).edges).count i
  edge_bound : ∀ i, i < vl.length → ∀ e ∈ (getV vl i).edges, e < vl.length

/-- Queue invariant while vertex c is being processed: c is grey and
    outside the queue; the grey vertices are exactly c and the queue
    members, with no duplicates. -/
structure QMid (c : Nat) (vl : List Vertex) (q : List Nat) : Prop where
  c_lt : c < vl.length
  c_grey : (getV vl c).color = VColor.grey
  q_lt : ∀ i ∈ q, i < vl.length
  q_grey : ∀ i ∈ q, (getV vl i).color = VColor.grey
  nodup : (c :: q).Nodup
  grey_mem : ∀ i, i < vl.length → (getV vl i).color = VColor.grey → i = c ∨ i ∈ q

/-- Queue invariant at the top of the while loop: the grey vertices
    are exactly the queue members, with no duplicates. -/
structure QInv (vl : List Vertex) (q : List Nat) : Prop where
  q_lt : ∀ i ∈ q, i < vl.length
  q_grey : ∀ i ∈ q, (getV vl i).color = VColor.grey
  nodup : q.Nodup
  grey_mem : ∀ i, i < vl.length → (getV vl i).color = VColor.grey → i ∈ q

/-- No settled vertex carries the goal state (the loop would have
    returned when it settled). -/
def NoGoalBlack (endState : List Nat) (vl : List Vertex) : Prop :=
  ∀ i, i < vl.length → (getV vl i).color = VColor.black → (getV vl i).state ≠ endState

/-- The vertex list produced by one processMove call that creates a
    fresh vertex: the fresh white vertex is appended, the two edges are
    inserted, and the fresh vertex is discovered (grey, predecessor,
    distance, lastMove).  Named so the processMove case analysis can be
    stated compactly. -/
def pmNewList (c : Nat) (curState : List Nat) (vl : List Vertex) (m : Nat × Nat) :
    List Vertex :=
  updateV
    (addEdge (addEdge (vl ++ [{ vdefault with state := curState.set m.1 m.2 }]) c vl.length)
      vl.length c)
    vl.length
    (fun v => { v with
      pred := some c,
      distance := (getV vl c).distance + 1,
      color := VColor.grey,
      lastMove := (curState.getD m.1 0 + 1, m.2 + 1) })

/-- A two-vertex sample graph (vertex 0 grey with the disk on peg 0,
    vertex 1 still white with the disk on peg 1), used to exercise the
    field-assignment properties on a concrete instance. -/
def sampleVL : List Vertex :=
  [⟨VColor.grey, 0, none, (0, 0), [], [0]⟩, ⟨VColor.white, 0, none, (0, 0), [], [1]⟩]

/-- Base-numPegs positional value of a configuration, for the
    pigeonhole bound on the number of vertices. -/
def encodeS (numPegs : Nat) : List Nat → Nat
  | [] => 0
  | x :: xs => x + numPegs * encodeS numPegs xs

theorem getD_cons_succ_fb {α : Type} (a : α) (t : List α) (i : Nat) (d : α) :
    (a :: t).getD (i + 1) d = t.getD i d := rfl

theorem getD_oob_fb {α : Type} : ∀ (l : List α) (i : Nat) (d : α), l.length ≤ i →
    l.getD i d = d := by
  intro l
  induction l with
  | nil => intro i d _; cases i <;> rfl
  | cons a t ih =>
    intro i d h
    cases i with
    | zero => simp at h
    | succ n =>
      rw [getD_cons_succ_fb]
      exact ih n d (by simp at h; omega)

theorem getD_set_self_fb {α : Type} : ∀ (l : List α) (i : Nat) (y d : α), i < l.length →
    (l.set i y).getD i d = y := by
  intro l
  induction l with
  | nil => intro i y d h; simp at h
  | cons a t ih =>
    intro i y d h
    cases i with
    | zero => rfl
    | succ n => exact ih n y d (by simp at h; omega)

theorem getD_set_ne_fb {α : Type} : ∀ (l : List α) (i j : Nat) (y d : α), j ≠ i →
    (l.set i y).getD j d = l.getD j d := by
  intro l
  induction l with
  | nil => intro i j y d _; cases i <;> rfl
  | cons a t ih =>
    intro i j y d h
    cases i with
    | zero =>
      cases j with
      | zero => exact absurd rfl h
      | succ m => rfl
    | succ n =>
      cases j with
      | zero => rfl
      | succ m => exact ih n m y d (by omega)

theorem getD_append_left_fb {α : Type} : ∀ (l l2 : List α) (i : Nat) (d : α),
    i < l.length → (l ++ l2).getD i d = l.getD i d := by
  intro l
  induction l with
  | nil => intro l2 i d h; simp at h
  | cons a t ih =>
    intro l2 i d h
    cases i with
    | zero => rfl
    | succ n => exact ih l2 n d (by simp at h; omega)

theorem getD_append_len_fb {α : Type} : ∀ (l : List α) (y d : α),
    (l ++ [y]).getD l.length d = y := by
  intro l
  induction l with
  | nil => intro y d; rfl
  | cons a t ih => intro y d; exact ih y d

theorem set_append_left_fb {α : Type} : ∀ (l l2 : List α) (i : Nat) (y : α),
    i < l.length → (l ++ l2).set i y = l.set i y ++ l2 := by
  intro l
  induction l with
  | nil => intro l2 i y h; simp at h
  | cons a t ih =>
    intro l2 i y h
    cases i with
    | zero => rfl
    | succ n =>
      have := ih l2 n y (by simp at h; omega)
      simp [List.set, this]

theorem set_append_len_fb {α : Type} : ∀ (l : List α) (x y : α),
    (l ++ [x]).set l.length y = l ++ [y] := by
  intro l
  induction l with
  | nil => intro x y; rfl
  | cons a t ih => intro x y; simp [List.set, ih]

theorem getD_replicate_fb {α : Type} : ∀ (n i : Nat) (a d : α), i < n →
    (List.replicate n a).getD i d = a := by
  intro n
  induction n with
  | zero => intro i a d h; omega
  | succ m ih =>
    intro i a d h
    cases i with
    | zero => rfl
    | succ k => exact ih k a d (by omega)

theorem set_getD_self_fb {α : Type} : ∀ (l : List α) (i : Nat) (d : α), i < l.length →
    l.set i (l.getD i d) = l := by
  intro l
  induction l with
  | nil => intro i d h; simp at h
  | cons a t ih =>
    intro i d h
    cases i with
    | zero => rfl
    | succ n =>
      show a :: t.set n (t.getD n d) = a :: t
      rw [ih n d (by simp at h; omega)]

theorem set_ne_self_fb {α : Type} (l : List α) (i : Nat) (y d : α)
    (h : i < l.length) (hy : y ≠ l.getD i d) : l.set i y ≠ l := by
  intro he
  apply hy
  have := getD_set_self_fb l i y d h
  rw [he] at this
  exact this.symm

theorem mem_set_cases_fb {α : Type} : ∀ (l : List α) (i : Nat) (y x : α),
    x ∈ l.set i y → x ∈ l ∨ x = y := by
  intro l
  induction l with
  | nil => intro i y x h; simp at h
  | cons a t ih =>
    intro i y x h
    cases i with
    | zero =>
      rcases List.mem_cons.mp h with h1 | h1
      · exact Or.inr h1
      · exact Or.inl (List.mem_cons_of_mem a h1)
    | succ n =>
      rcases List.mem_cons.mp h with h1 | h1
      · exact Or.inl (h1 ▸ List.mem_cons_self a t)
      · rcases ih n y x h1 with h2 | h2
        · exact Or.inl (List.mem_cons_of_mem a h2)
        · exact Or.inr h2

theorem length_set_ne_fb {α : Type} (l : List α) (i : Nat) (y : α) :
    (l.set i y).length = l.length := List.length_set l i y

theorem getV_cons_succ (v : Vertex) (rest : List Vertex) (i : Nat) :
    getV (v :: rest) (i + 1) = getV rest i := rfl

theorem getV_oob {vl : List Vertex} {i : Nat} (h : vl.length ≤ i) : getV vl i = vdefault :=
  getD_oob_fb vl i vdefault h

theorem length_updateV (vl : List Vertex) (i : Nat) (f : Vertex → Vertex) :
    (updateV vl i f).length = vl.length := List.length_set vl i (f (getV vl i))

theorem getV_updateV_self {vl : List Vertex} {i : Nat} (f : Vertex → Vertex)
    (h : i < vl.length) : getV (updateV vl i f) i = f (getV vl i) :=
  getD_set_self_fb vl i (f (getV vl i)) vdefault h

theorem getV_updateV_ne {vl : List Vertex} {i j : Nat} (f : Vertex → Vertex)
    (h : j ≠ i) : getV (updateV vl i f) j = getV vl j :=
  getD_set_ne_fb vl i j (f (getV vl i)) vdefault h

theorem getV_append_lt {vl : List Vertex} {i : Nat} (v : Vertex) (h : i < vl.length) :
    getV (vl ++ [v]) i = getV vl i :=
  getD_append_left_fb vl [v] i vdefault h

theorem getV_append_len (vl : List Vertex) (v : Vertex) : getV (vl ++ [v]) vl.length = v :=
  getD_append_len_fb vl v vdefault

theorem length_addEdge (vl : List Vertex) (i j : Nat) :
    (addEdge vl i j).length = vl.length := length_updateV vl i _

theorem getV_addEdge_self {vl : List Vertex} {i : Nat} (j : Nat) (h : i < vl.length) :
    getV (addEdge vl i j) i = { getV vl i with edges := j :: (getV vl i).edges } :=
  getV_updateV_self _ h

theorem getV_addEdge_ne {vl : List Vertex} {i k : Nat} (j : Nat) (h : k ≠ i) :
    getV (addEdge vl i j) k = getV vl k :=
  getV_updateV_ne _ h

theorem length_setColor (vl : List Vertex) (i : Nat) (col : VColor) :
    (setColor vl i col).length = vl.length := length_updateV vl i _

theorem getV_setColor_self {vl : List Vertex} {i : Nat} (col : VColor) (h : i < vl.length) :
    getV (setColor vl i col) i = { getV vl i with color := col } :=
  getV_updateV_self _ h

theorem getV_setColor_ne {vl : List Vertex} {i k : Nat} (col : VColor) (h : k ≠ i) :
    getV (setColor vl i col) k = getV vl k :=
  getV_updateV_ne _ h

theorem findVertexIdx_some : ∀ {vl : List Vertex} {s : List Nat} {n : Nat},
    findVertexIdx vl s = some n → n < vl.length ∧ (getV vl n).state = s := by
  intro vl
  induction vl with
  | nil => intro s n h; simp [findVertexIdx] at h
  | cons v rest ih =>
    intro s n h
    unfold findVertexIdx at h
    by_cases hv : v.state == s
    · rw [if_pos hv] at h
      cases h
      exact ⟨by simp, eq_of_beq hv⟩
    · rw [if_neg hv] at h
      cases hrec : findVertexIdx rest s with
      | none => rw [hrec] at h; simp at h
      | some m =>
        rw [hrec] at h
        simp at h
        rcases ih hrec with ⟨h1, h2⟩
        subst h
        exact ⟨by simp; omega, h2⟩

theorem findVertexIdx_none : ∀ {vl : List Vertex} {s : List Nat},
    findVertexIdx vl s = none → ∀ i, i < vl.length → (getV vl i).state ≠ s := by
  intro vl
  induction vl with
  | nil => intro s _ i h; simp at h
  | cons v rest ih =>
    intro s h i hi
    unfold findVertexIdx at h
    by_cases hv : v.state == s
    · rw [if_pos hv] at h; cases h
    · rw [if_neg hv] at h
      cases i with
      | zero => simpa using fun he => hv (beq_iff_eq.mpr he)
      | succ m =>
        rw [getV_cons_succ]
        cases hrec : findVertexIdx rest s with
        | none => exact ih hrec m (by simp at hi; omega)
        | some k => rw [hrec] at h; simp at h

theorem findVertexIdx_isSome {vl : List Vertex} {s : List Nat} {i : Nat}
    (h : i < vl.length) (hs : (getV vl i).state = s) :
    ∃ n, findVertexIdx vl s = some n := by
  cases hf : findVertexIdx vl s with
  | none => exact absurd hs (findVertexIdx_none hf i h)
  | some n => exact ⟨n, rfl⟩

theorem findVertexIdx_zero {vl : List Vertex} {s : List Nat}
    (h : 0 < vl.length) (hs : (getV vl 0).state = s) : findVertexIdx vl s = some 0 := by
  cases vl with
  | nil => simp at h
  | cons v rest =>
    have : v.state == s := beq_iff_eq.mpr hs
    simp [findVertexIdx, this]

theorem pegHasSmallerDisk_iff {s : List Nat} {d p : Nat} :
    PegHasSmallerDisk s d p = true ↔ ∃ i, i < d ∧ s.getD i 0 = p := by
  simp [PegHasSmallerDisk, List.any_eq_true, List.mem_range]

theorem diskNotSmallest_iff {s : List Nat} {d : Nat} :
    DiskNotSmallestOnPeg s d = true ↔ ∃ i, i < d ∧ s.getD i 0 = s.getD d 0 := by
  simp [DiskNotSmallestOnPeg, List.any_eq_true, List.mem_range]

theorem mem_neighborMoves {numPegs : Nat} {s : List Nat} {d p : Nat} :
    (d, p) ∈ neighborMoves numPegs s ↔ MoveOK numPegs s d p := by
  unfold neighborMoves MoveOK
  rw [List.mem_flatMap]
  constructor
  · rintro ⟨a, ha, hmem⟩
    rw [List.mem_range] at ha
    by_cases hc : DiskNotSmallestOnPeg s a
    · simp [hc] at hmem
    · rw [if_neg hc] at hmem
      rcases List.mem_map.mp hmem with ⟨p', hp', hpair⟩
      cases hpair
      rcases List.mem_filter.mp hp' with ⟨hpr, hcond⟩
      rw [List.mem_range] at hpr
      simp only [Bool.and_eq_true, Bool.not_eq_true'] at hcond
      rcases hcond with ⟨h1, h2⟩
      refine ⟨ha, hpr, ?_, ?_, ?_⟩
      · intro he; rw [beq_eq_false_iff_ne] at h1; exact h1 he
      · intro i hi he
        exact absurd (diskNotSmallest_iff.mpr ⟨i, hi, he⟩) (by simpa using hc)
      · intro i hi he
        rw [← Bool.not_eq_true] at h2
        exact h2 (pegHasSmallerDisk_iff.mpr ⟨i, hi, he⟩)
  · rintro ⟨hd, hp, hne, hsm, hpeg⟩
    refine ⟨d, List.mem_range.mpr hd, ?_⟩
    have hc : DiskNotSmallestOnPeg s d = false := by
      rw [← Bool.not_eq_true]
      intro h
      rcases diskNotSmallest_iff.mp h with ⟨i, hi, he⟩
      exact hsm i hi he
    rw [if_neg (by simp [hc])]
    refine List.mem_map.mpr ⟨p, List.mem_filter.mpr ⟨List.mem_range.mpr hp, ?_⟩, rfl⟩
    have h2 : PegHasSmallerDisk s d p = false := by
      rw [← Bool.not_eq_true]
      intro h
      rcases pegHasSmallerDisk_iff.mp h with ⟨i, hi, he⟩
      exact hpeg i hi he
    rw [h2]
    simp only [Bool.not_false, Bool.and_true, Bool.not_eq_true', beq_eq_false_iff_ne]
    exact hne

/-- Claim C2: during neighbour generation, the move of disk d to peg p
    is generated if and only if no disk with smaller index shares
    disk d's peg, p differs from that peg, and no disk with smaller
    index sits on p (for any disk index d and peg index p in range). -/
theorem move_generated_iff (numPegs : Nat) (s : List Nat) (d p : Nat)
    (hd : d < s.length) (hp : p < numPegs) :
    ((d, p) ∈ neighborMoves numPegs s ↔
      (∀ i, i < d → s.getD i 0 ≠ s.getD d 0) ∧ p ≠ s.getD d 0 ∧
        (∀ i, i < d → s.getD i 0 ≠ p)) := by
  rw [mem_neighborMoves]
  unfold MoveOK
  tauto

theorem move_generated_iff_witness :
    (1, 2) ∈ neighborMoves 3 [0, 1] ↔
      (∀ i, i < 1 → ([0, 1] : List Nat).getD i 0 ≠ ([0, 1] : List Nat).getD 1 0) ∧
        (2 : Nat) ≠ ([0, 1] : List Nat).getD 1 0 ∧
        (∀ i, i < 1 → ([0, 1] : List Nat).getD i 0 ≠ 2) :=
  move_generated_iff 3 [0, 1] 1 2 (by decide) (by decide)

/-- Claim C10: the search is a pure function of its input: two runs on
    identical inputs return the same distance and the same ordered
    move sequence (there is no other input to the algorithm). -/
theorem deterministic_runs (numPegs fuel : Nat) (s t s' t' : List Nat)
    (h1 : s = s') (h2 : t = t') :
    BuildAndExplore numPegs fuel s t = BuildAndExplore numPegs fuel s' t' ∧
      mainModel numPegs fuel s t = mainModel numPegs fuel s' t' := by
  subst h1
  subst h2
  exact ⟨rfl, rfl⟩

theorem deterministic_runs_witness :
    BuildAndExplore 3 28 [0, 0, 0] [2, 2, 2] = BuildAndExplore 3 28 [0, 0, 0] [2, 2, 2] ∧
      mainModel 3 28 [0, 0, 0] [2, 2, 2] = mainModel 3 28 [0, 0, 0] [2, 2, 2] :=
  deterministic_runs 3 28 [0, 0, 0] [2, 2, 2] [0, 0, 0] [2, 2, 2] rfl rfl

theorem set_oob_fb {α : Type} : ∀ (l : List α) (i : Nat) (y : α), l.length ≤ i →
    l.set i y = l := by
  intro l
  induction l with
  | nil => intro i y _; rfl
  | cons a t ih =>
    intro i y h
    cases i with
    | zero => simp at h
    | succ n => simp [List.set, ih n y (by simp at h; omega)]

theorem updateV_oob {vl : List Vertex} {i : Nat} (f : Vertex → Vertex)
    (h : vl.length ≤ i) : updateV vl i f = vl :=
  set_oob_fb vl i _ h

theorem fieldsEq_refl (v : Vertex) : fieldsEq v v := ⟨rfl, rfl, rfl, rfl, rfl⟩

theorem fieldsEq_trans {a b c : Vertex} (h1 : fieldsEq a b) (h2 : fieldsEq b c) :
    fieldsEq a c := by
  rcases h1 with ⟨e1, e2, e3, e4, e5⟩
  rcases h2 with ⟨f1, f2, f3, f4, f5⟩
  exact ⟨e1.trans f1, e2.trans f2, e3.trans f3, e4.trans f4, e5.trans f5⟩

theorem getV_addEdge_fieldsEq (vl : List Vertex) (i j k : Nat) :
    fieldsEq (getV (addEdge vl i j) k) (getV vl k) := by
  by_cases hk : k = i
  · subst hk
    by_cases hl : k < vl.length
    · rw [getV_addEdge_self j hl]
      exact ⟨rfl, rfl, rfl, rfl, rfl⟩
    · rw [addEdge, updateV_oob _ (by omega)]
      exact fieldsEq_refl _
  · rw [getV_addEdge_ne j hk]
    exact fieldsEq_refl _

theorem getV_setColor_fieldsNC (vl : List Vertex) (i : Nat) (col : VColor) (k : Nat) :
    (getV (setColor vl i col) k).state = (getV vl k).state ∧
    (getV (setColor vl i col) k).distance = (getV vl k).distance ∧
    (getV (setColor vl i col) k).pred = (getV vl k).pred ∧
    (getV (setColor vl i col) k).lastMove = (getV vl k).lastMove ∧
    (getV (setColor vl i col) k).edges = (getV vl k).edges := by
  by_cases hk : k = i
  · subst hk
    by_cases hl : k < vl.length
    · rw [getV_setColor_self col hl]
      exact ⟨rfl, rfl, rfl, rfl, rfl⟩
    · rw [setColor, updateV_oob _ (by omega)]
      exact ⟨rfl, rfl, rfl, rfl, rfl⟩
  · rw [getV_setColor_ne col hk]
    exact ⟨rfl, rfl, rfl, rfl, rfl⟩

theorem getV_setColor_color {vl : List Vertex} {i : Nat} (col : VColor)
    (h : i < vl.length) : (getV (setColor vl i col) i).color = col := by
  rw [getV_setColor_self col h]

theorem blackCount_cons (v : Vertex) (rest : List Vertex) :
    blackCount (v :: rest) = (if v.color = VColor.black then 1 else 0) + blackCount rest := rfl

theorem blackCount_append (l1 l2 : List Vertex) :
    blackCount (l1 ++ l2) = blackCount l1 + blackCount l2 := by
  induction l1 with
  | nil => simp [blackCount]
  | cons v rest ih => simp [blackCount, ih]; omega

theorem blackCount_le_length : ∀ vl : List Vertex, blackCount vl ≤ vl.length := by
  intro vl
  induction vl with
  | nil => simp [blackCount]
  | cons v rest ih =>
    rw [blackCount_cons]
    by_cases h : v.color = VColor.black <;> simp [h] <;> omega

theorem blackCount_set : ∀ (vl : List Vertex) (i : Nat) (v : Vertex), i < vl.length →
    blackCount (vl.set i v) + (if (getV vl i).color = VColor.black then 1 else 0)
      = blackCount vl + (if v.color = VColor.black then 1 else 0) := by
  intro vl
  induction vl with
  | nil => intro i v h; simp at h
  | cons a t ih =>
    intro i v h
    cases i with
    | zero =>
      show blackCount (v :: t) + _ = _
      rw [blackCount_cons, blackCount_cons]
      have hg0 : getV (a :: t) 0 = a := rfl
      rw [hg0]
      omega
    | succ n =>
      show blackCount (a :: t.set n v) + _ = _
      rw [blackCount_cons, blackCount_cons]
      have := ih n v (by simp at h; omega)
      have hg : getV (a :: t) (n + 1) = getV t n := rfl
      rw [hg]
      omega

theorem blackCount_updateV_pres {vl : List Vertex} {i : Nat} {f : Vertex → Vertex}
    (h : (f (getV vl i)).color = VColor.black ↔ (getV vl i).color = VColor.black) :
    blackCount (updateV vl i f) = blackCount vl := by
  by_cases hl : i < vl.length
  · show blackCount (vl.set i (f (getV vl i))) = blackCount vl
    have := blackCount_set vl i (f (getV vl i)) hl
    by_cases hb : (getV vl i).color = VColor.black
    · rw [if_pos hb, if_pos (h.mpr hb)] at this
      omega
    · rw [if_neg hb, if_neg (fun hc => hb (h.mp hc))] at this
      omega
  · rw [updateV_oob _ (by omega)]

theorem blackCount_addEdge (vl : List Vertex) (i j : Nat) :
    blackCount (addEdge vl i j) = blackCount vl :=
  blackCount_updateV_pres (by constructor <;> exact fun h => h)

theorem blackCount_setColor_black {vl : List Vertex} {i : Nat}
    (hl : i < vl.length) (h : (getV vl i).color ≠ VColor.black) :
    blackCount (setColor vl i VColor.black) = blackCount vl + 1 := by
  have := blackCount_set vl i ({ getV vl i with color := VColor.black }) hl
  rw [if_neg h, if_pos rfl] at this
  exact this

theorem processMove_found {c : Nat} {curState : List Nat} {vl : List Vertex}
    {q : List Nat} {m : Nat × Nat} {n : Nat}
    (hf : findVertexIdx vl (curState.set m.1 m.2) = some n)
    (hnw : (getV vl n).color ≠ VColor.white) :
    processMove c curState (vl, q) m = (addEdge (addEdge vl c n) n c, q) := by
  have hcolor : (getV (addEdge (addEdge vl c n) n c) n).color = (getV vl n).color := by
    have h1 := (getV_addEdge_fieldsEq (addEdge vl c n) n c n).2.2.2.2
    have h2 := (getV_addEdge_fieldsEq vl c n n).2.2.2.2
    rw [h1, h2]
  simp only [processMove, getVertex, hf]
  rw [if_neg (by rw [hcolor]; exact hnw)]

theorem processMove_new {c : Nat} {curState : List Nat} {vl : List Vertex}
    {q : List Nat} {m : Nat × Nat}
    (hf : findVertexIdx vl (curState.set m.1 m.2) = none)
    (hc : c < vl.length) :
    processMove c curState (vl, q) m = (pmNewList c curState vl m, q ++ [vl.length]) := by
  unfold pmNewList
  have hcne : c ≠ vl.length := by omega
  have hlen1 : (vl ++ [{ vdefault with state := curState.set m.1 m.2 }]).length = vl.length + 1 := by
    simp
  have hwhite :
      (getV (addEdge (addEdge (vl ++ [{ vdefault with state := curState.set m.1 m.2 }]) c vl.length)
        vl.length c) vl.length).color = VColor.white := by
    have h1 := (getV_addEdge_fieldsEq
      (addEdge (vl ++ [{ vdefault with state := curState.set m.1 m.2 }]) c vl.length)
      vl.length c vl.length).2.2.2.2
    have h2 := (getV_addEdge_fieldsEq
      (vl ++ [{ vdefault with state := curState.set m.1 m.2 }]) c vl.length vl.length).2.2.2.2
    rw [h1, h2, getV_append_len]
    rfl
  have hdist :
      (getV (addEdge (addEdge (vl ++ [{ vdefault with state := curState.set m.1 m.2 }]) c vl.length)
        vl.length c) c).distance = (getV vl c).distance := by
    have h1 := (getV_addEdge_fieldsEq
      (addEdge (vl ++ [{ vdefault with state := curState.set m.1 m.2 }]) c vl.length)
      vl.length c c).2.1
    have h2 := (getV_addEdge_fieldsEq
      (vl ++ [{ vdefault with state := curState.set m.1 m.2 }]) c vl.length c).2.1
    rw [h1, h2, getV_append_lt _ hc]
  simp only [processMove, getVertex, hf]
  rw [if_pos hwhite, hdist]

theorem chainOK_transfer {numPegs : Nat} {vl vl' : List Vertex} {i : Nat}
    (hlen : vl.length ≤ vl'.length) (hi : i < vl.length)
    (hfe : ∀ k, k < vl.length →
      (getV vl' k).state = (getV vl k).state ∧
      (getV vl' k).distance = (getV vl k).distance ∧
      (getV vl' k).pred = (getV vl k).pred ∧
      (getV vl' k).lastMove = (getV vl k).lastMove)
    (h : ChainOK numPegs vl i) : ChainOK numPegs vl' i := by
  rcases h with ⟨h0, hs⟩
  constructor
  · intro he
    rcases hfe i hi with ⟨_, hd, hp, _⟩
    rw [hd, hp]
    exact h0 he
  · intro hne
    rcases hs hne with ⟨j, hj, hpred, hdist, d, p, hmv, hst, hlm⟩
    rcases hfe i hi with ⟨si, di, pi, li⟩
    rcases hfe j hj with ⟨sj, dj, pj, lj⟩
    refine ⟨j, lt_of_lt_of_le hj hlen, by rw [pi]; exact hpred,
      by rw [di, dj]; exact hdist, d, p, by rw [sj]; exact hmv,
      by rw [si, sj]; exact hst, by rw [li, sj]; exact hlm⟩

theorem edge_sym_addEdge2 {vl : List Vertex} {a b : Nat}
    (ha : a < vl.length) (hb : b < vl.length) (hab : a ≠ b)
    (hsym : ∀ i j, ((getV vl i).edges).count j = ((getV vl j).edges).count i) :
    ∀ i j, ((getV (addEdge (addEdge vl a b) b a) i).edges).count j
      = ((getV (addEdge (addEdge vl a b) b a) j).edges).count i := by
  have hb' : b < (addEdge vl a b).length := by rw [length_addEdge]; exact hb
  have hEa : (getV (addEdge (addEdge vl a b) b a) a).edges = b :: (getV vl a).edges := by
    rw [getV_addEdge_ne a hab, getV_addEdge_self b ha]
  have hEb : (getV (addEdge (addEdge vl a b) b a) b).edges = a :: (getV vl b).edges := by
    rw [getV_addEdge_self a hb']
    show a :: (getV (addEdge vl a b) b).edges = a :: (getV vl b).edges
    rw [getV_addEdge_ne b (Ne.symm hab)]
  have hEo : ∀ k, k ≠ a → k ≠ b → (getV (addEdge (addEdge vl a b) b a) k).edges
      = (getV vl k).edges := by
    intro k hka hkb
    rw [getV_addEdge_ne a hkb, getV_addEdge_ne b hka]
  intro i j
  by_cases hia : i = a
  · subst hia
    by_cases hjb : j = b
    · subst hjb
      rw [hEa, hEb, List.count_cons_self, List.count_cons_self, hsym]
    · by_cases hja : j = i
      · subst hja; rfl
      · rw [hEa, hEo j hja hjb, List.count_cons_of_ne (fun he => hjb he), hsym]
  · by_cases hib : i = b
    · subst hib
      by_cases hja : j = a
      · subst hja
        rw [hEa, hEb, List.count_cons_self, List.count_cons_self, hsym]
      · by_cases hjb : j = i
        · subst hjb; rfl
        · rw [hEb, hEo j hja hjb, List.count_cons_of_ne (fun he => hja he), hsym]
    · by_cases hja : j = a
      · subst hja
        rw [hEo i hia hib, hEa, List.count_cons_of_ne (fun he => hib he), hsym]
      · by_cases hjb : j = b
        · subst hjb
          rw [hEo i hia hib, hEb, List.count_cons_of_ne (fun he => hia he), hsym]
        · rw [hEo i hia hib, hEo j hja hjb, hsym]

theorem edge_sym_append {vl : List Vertex} {v : Vertex} (hv : v.edges = [])
    (hbound : ∀ i, i < vl.length → ∀ e ∈ (getV vl i).edges, e < vl.length)
    (hsym : ∀ i j, ((getV vl i).edges).count j = ((getV vl j).edges).count i) :
    ∀ i j, ((getV (vl ++ [v]) i).edges).count j = ((getV (vl ++ [v]) j).edges).count i := by
  have hedges : ∀ k, (getV (vl ++ [v]) k).edges =
      if k < vl.length then (getV vl k).edges else if k = vl.length then v.edges else [] := by
    intro k
    by_cases hk : k < vl.length
    · rw [getV_append_lt v hk, if_pos hk]
    · rw [if_neg hk]
      by_cases hk2 : k = vl.length
      · subst hk2; rw [getV_append_len, if_pos rfl]
      · rw [if_neg hk2, getV_oob (by simp; omega)]
        rfl
  have hnotmem : ∀ k j, vl.length ≤ j → ((getV (vl ++ [v]) k).edges).count j = 0 := by
    intro k j hj
    rw [hedges k]
    by_cases hk : k < vl.length
    · rw [if_pos hk, List.count_eq_zero]
      intro hmem
      exact absurd (hbound k hk j hmem) (by omega)
    · rw [if_neg hk]
      by_cases hk2 : k = vl.length
      · rw [if_pos hk2, hv]; rfl
      · rw [if_neg hk2]; rfl
  intro i j
  by_cases hi : i < vl.length
  · by_cases hj : j < vl.length
    · rw [hedges i, hedges j, if_pos hi, if_pos hj, hsym]
    · rw [hnotmem i j (by omega), hedges j, if_neg hj]
      by_cases hj2 : j = vl.length
      · rw [if_pos hj2, hv]; rfl
      · rw [if_neg hj2]; rfl
  · rw [hnotmem j i (by omega)]
    rw [hedges i, if_neg hi]
    by_cases hi2 : i = vl.length
    · rw [if_pos hi2, hv]; rfl
    · rw [if_neg hi2]; rfl

theorem addEdge2_edges_a {vl : List Vertex} {a b : Nat} (ha : a < vl.length) (hab : a ≠ b) :
    (getV (addEdge (addEdge vl a b) b a) a).edges = b :: (getV vl a).edges := by
  rw [getV_addEdge_ne a hab, getV_addEdge_self b ha]

theorem addEdge2_edges_b {vl : List Vertex} {a b : Nat} (hb : b < vl.length) (hab : a ≠ b) :
    (getV (addEdge (addEdge vl a b) b a) b).edges = a :: (getV vl b).edges := by
  rw [getV_addEdge_self a (by rw [length_addEdge]; exact hb)]
  show a :: (getV (addEdge vl a b) b).edges = a :: (getV vl b).edges
  rw [getV_addEdge_ne b (Ne.symm hab)]

theorem addEdge2_edges_o {vl : List Vertex} {a b : Nat} (k : Nat) (hka : k ≠ a) (hkb : k ≠ b) :
    (getV (addEdge (addEdge vl a b) b a) k).edges = (getV vl k).edges := by
  rw [getV_addEdge_ne a hkb, getV_addEdge_ne b hka]

theorem edge_sym_updateV_pres {vl : List Vertex} {i : Nat} {f : Vertex → Vertex}
    (hedges : (f (getV vl i)).edges = (getV vl i).edges)
    (hsym : ∀ a b, ((getV vl a).edges).count b = ((getV vl b).edges).count a) :
    ∀ a b, ((getV (updateV vl i f) a).edges).count b
      = ((getV (updateV vl i f) b).edges).count a := by
  have hpt : ∀ k, (getV (updateV vl i f) k).edges = (getV vl k).edges := by
    intro k
    by_cases hk : k = i
    · subst hk
      by_cases hl : k < vl.length
      · rw [getV_updateV_self f hl, hedges]
      · rw [updateV_oob f (by omega)]
    · rw [getV_updateV_ne f hk]
  intro a b
  rw [hpt a, hpt b, hsym]

theorem processMove_spec_found {numPegs : Nat} {startState : List Nat} {c n : Nat}
    {curState : List Nat} {vl : List Vertex} {q : List Nat} {m : Nat × Nat}
    (hInv : InvCore numPegs startState vl) (hQ : QMid c vl q)
    (hn : n < vl.length) (hns : (getV vl n).state = curState.set m.1 m.2)
    (hncc : n ≠ c) :
    InvCore numPegs startState (addEdge (addEdge vl c n) n c) ∧
    QMid c (addEdge (addEdge vl c n) n c) q ∧
    vl.length ≤ (addEdge (addEdge vl c n) n c).length ∧
    (∀ i, i < vl.length → fieldsEq (getV (addEdge (addEdge vl c n) n c) i) (getV vl i)) ∧
    (∃ j, j < (addEdge (addEdge vl c n) n c).length ∧
      (getV (addEdge (addEdge vl c n) n c) j).state = curState.set m.1 m.2) ∧
    blackCount (addEdge (addEdge vl c n) n c) = blackCount vl := by
  have hc := hQ.c_lt
  have hlen : (addEdge (addEdge vl c n) n c).length = vl.length := by
    rw [length_addEdge, length_addEdge]
  have hfe : ∀ k, fieldsEq (getV (addEdge (addEdge vl c n) n c) k) (getV vl k) := fun k =>
    fieldsEq_trans (getV_addEdge_fieldsEq _ n c k) (getV_addEdge_fieldsEq vl c n k)
  have hstate : ∀ k, (getV (addEdge (addEdge vl c n) n c) k).state = (getV vl k).state :=
    fun k => (hfe k).1
  have hdist : ∀ k, (getV (addEdge (addEdge vl c n) n c) k).distance = (getV vl k).distance :=
    fun k => (hfe k).2.1
  have hpredf : ∀ k, (getV (addEdge (addEdge vl c n) n c) k).pred = (getV vl k).pred :=
    fun k => (hfe k).2.2.1
  have hlm : ∀ k, (getV (addEdge (addEdge vl c n) n c) k).lastMove = (getV vl k).lastMove :=
    fun k => (hfe k).2.2.2.1
  have hcol : ∀ k, (getV (addEdge (addEdge vl c n) n c) k).color = (getV vl k).color :=
    fun k => (hfe k).2.2.2.2
  have hEc : (getV (addEdge (addEdge vl c n) n c) c).edges = n :: (getV vl c).edges :=
    addEdge2_edges_a hc (Ne.symm hncc)
  have hEn : (getV (addEdge (addEdge vl c n) n c) n).edges = c :: (getV vl n).edges :=
    addEdge2_edges_b hn (Ne.symm hncc)
  refine ⟨?_, ?_, le_of_eq hlen.symm, fun i _ => hfe i, ⟨n, by omega, by rw [hstate n]; exact hns⟩,
    by rw [addEdge, addEdge, blackCount_updateV_pres (by constructor <;> exact fun h => h),
      blackCount_updateV_pres (by constructor <;> exact fun h => h)]⟩
  · refine ⟨by omega, by rw [hstate 0]; exact hInv.start0,
      fun i hi => by rw [hstate i]; exact hInv.states_len i (by omega),
      fun i hi => by rw [hstate i]; exact hInv.states_bound i (by omega),
      fun i j hi hj he => hInv.states_nodup i j (by omega) (by omega)
        (by rw [hstate i, hstate j] at he; exact he),
      fun i hi => by rw [hcol i]; exact hInv.colors i (by omega),
      fun i hi => chainOK_transfer (le_of_eq hlen.symm) (by omega)
        (fun k _ => ⟨hstate k, hdist k, hpredf k, hlm k⟩) (hInv.chain i (by omega)),
      ?_, edge_sym_addEdge2 hc hn (Ne.symm hncc) hInv.edge_sym, ?_⟩
    · intro i hi hb mv hmv
      rw [hstate i] at hmv ⊢
      rw [hcol i] at hb
      rcases hInv.black_closed i (by omega) hb mv hmv with ⟨j, hj, hsj⟩
      exact ⟨j, by omega, by rw [hstate j]; exact hsj⟩
    · intro i hi e he
      by_cases hic : i = c
      · subst hic
        rw [hEc] at he
        rcases List.mem_cons.mp he with h1 | h1
        · omega
        · have := hInv.edge_bound i hc e h1
          omega
      · by_cases hin : i = n
        · subst hin
          rw [hEn] at he
          rcases List.mem_cons.mp he with h1 | h1
          · omega
          · have := hInv.edge_bound i hn e h1
            omega
        · rw [addEdge2_edges_o i hic hin] at he
          have := hInv.edge_bound i (by omega) e he
          omega
  · exact ⟨by omega, by rw [hcol c]; exact hQ.c_grey,
      fun i hiq => by have := hQ.q_lt i hiq; omega,
      fun i hiq => by rw [hcol i]; exact hQ.q_grey i hiq,
      hQ.nodup,
      fun i hi hg => hQ.grey_mem i (by omega) (by rw [hcol i] at hg; exact hg)⟩

theorem vertex_ext {a b : Vertex} (h1 : a.color = b.color) (h2 : a.distance = b.distance)
    (h3 : a.pred = b.pred) (h4 : a.lastMove = b.lastMove) (h5 : a.edges = b.edges)
    (h6 : a.state = b.state) : a = b := by
  cases a
  cases b
  congr 1

theorem processMove_spec_new {numPegs : Nat} {startState : List Nat} {c : Nat}
    {curState : List Nat} {vl : List Vertex} {q : List Nat} {m : Nat × Nat}
    (hInv : InvCore numPegs startState vl) (hQ : QMid c vl q)
    (hcs : (getV vl c).state = curState)
    (hm : MoveOK numPegs curState m.1 m.2)
    (hf : findVertexIdx vl (curState.set m.1 m.2) = none) :
    InvCore numPegs startState (pmNewList c curState vl m) ∧
    QMid c (pmNewList c curState vl m) (q ++ [vl.length]) ∧
    vl.length ≤ (pmNewList c curState vl m).length ∧
    (∀ i, i < vl.length → fieldsEq (getV (pmNewList c curState vl m) i) (getV vl i)) ∧
    (∃ j, j < (pmNewList c curState vl m).length ∧
      (getV (pmNewList c curState vl m) j).state = curState.set m.1 m.2) ∧
    blackCount (pmNewList c curState vl m) = blackCount vl ∧
    (∀ i, vl.length ≤ i → i < (pmNewList c curState vl m).length →
      (getV (pmNewList c curState vl m) i).color = VColor.grey) := by
  have hc := hQ.c_lt
  have hcne : c ≠ vl.length := by omega
  have hlenA : (addEdge (addEdge (vl ++ [{ vdefault with state := curState.set m.1 m.2 }]) c
      vl.length) vl.length c).length = vl.length + 1 := by
    rw [length_addEdge, length_addEdge]
    simp
  have hlen : (pmNewList c curState vl m).length = vl.length + 1 := by
    rw [pmNewList, length_updateV, hlenA]
  have hfeA : ∀ k, fieldsEq
      (getV (addEdge (addEdge (vl ++ [{ vdefault with state := curState.set m.1 m.2 }]) c
        vl.length) vl.length c) k)
      (getV (vl ++ [{ vdefault with state := curState.set m.1 m.2 }]) k) := fun k =>
    fieldsEq_trans (getV_addEdge_fieldsEq _ vl.length c k) (getV_addEdge_fieldsEq _ c vl.length k)
  have hfe : ∀ k, k < vl.length → fieldsEq (getV (pmNewList c curState vl m) k) (getV vl k) := by
    intro k hk
    have h1 : getV (pmNewList c curState vl m) k
        = getV (addEdge (addEdge (vl ++ [{ vdefault with state := curState.set m.1 m.2 }]) c
          vl.length) vl.length c) k := by
      rw [pmNewList, getV_updateV_ne _ (by omega)]
    rw [h1]
    exact fieldsEq_trans (hfeA k)
      (by rw [getV_append_lt _ hk]; exact fieldsEq_refl _)
  have hstate : ∀ k, k < vl.length →
      (getV (pmNewList c curState vl m) k).state = (getV vl k).state := fun k hk => (hfe k hk).1
  have hdist : ∀ k, k < vl.length →
      (getV (pmNewList c curState vl m) k).distance = (getV vl k).distance :=
    fun k hk => (hfe k hk).2.1
  have hpredf : ∀ k, k < vl.length →
      (getV (pmNewList c curState vl m) k).pred = (getV vl k).pred :=
    fun k hk => (hfe k hk).2.2.1
  have hlmf : ∀ k, k < vl.length →
      (getV (pmNewList c curState vl m) k).lastMove = (getV vl k).lastMove :=
    fun k hk => (hfe k hk).2.2.2.1
  have hcol : ∀ k, k < vl.length →
      (getV (pmNewList c curState vl m) k).color = (getV vl k).color :=
    fun k hk => (hfe k hk).2.2.2.2
  have hAL : getV (addEdge (addEdge (vl ++ [{ vdefault with state := curState.set m.1 m.2 }]) c
      vl.length) vl.length c) vl.length
      = ⟨VColor.white, 0, none, (0, 0), [c], curState.set m.1 m.2⟩ := by
    have he := @addEdge2_edges_b
      (vl ++ [{ vdefault with state := curState.set m.1 m.2 }])
      c vl.length (by simp) hcne
    rw [getV_append_len] at he
    have hrest := hfeA vl.length
    rw [getV_append_len] at hrest
    exact vertex_ext hrest.2.2.2.2 hrest.2.1 hrest.2.2.1 hrest.2.2.2.1 he hrest.1
  have hgL : getV (pmNewList c curState vl m) vl.length
      = ⟨VColor.grey, (getV vl c).distance + 1, some c,
        (curState.getD m.1 0 + 1, m.2 + 1), [c], curState.set m.1 m.2⟩ := by
    rw [pmNewList, getV_updateV_self _ (by rw [hlenA]; omega), hAL]
  have hEc : (getV (pmNewList c curState vl m) c).edges = vl.length :: (getV vl c).edges := by
    have h1 : getV (pmNewList c curState vl m) c
        = getV (addEdge (addEdge (vl ++ [{ vdefault with state := curState.set m.1 m.2 }]) c
          vl.length) vl.length c) c := by
      rw [pmNewList, getV_updateV_ne _ hcne]
    rw [h1, addEdge2_edges_a (by simp; omega) hcne, getV_append_lt _ hc]
  have hEo : ∀ k, k < vl.length → k ≠ c →
      (getV (pmNewList c curState vl m) k).edges = (getV vl k).edges := by
    intro k hk hkc
    have h1 : getV (pmNewList c curState vl m) k
        = getV (addEdge (addEdge (vl ++ [{ vdefault with state := curState.set m.1 m.2 }]) c
          vl.length) vl.length c) k := by
      rw [pmNewList, getV_updateV_ne _ (by omega)]
    rw [h1, addEdge2_edges_o k hkc (by omega), getV_append_lt _ hk]
  have hnotold : ∀ i, i < vl.length → (getV vl i).state ≠ curState.set m.1 m.2 :=
    findVertexIdx_none hf
  refine ⟨?_, ?_, by omega, hfe, ⟨vl.length, by omega, by rw [hgL]⟩, ?_, ?_⟩
  · refine ⟨by omega, by rw [hstate 0 hInv.len_pos]; exact hInv.start0, ?_, ?_, ?_, ?_, ?_, ?_, ?_, ?_⟩
    · intro i hi
      by_cases hil : i < vl.length
      · rw [hstate i hil]; exact hInv.states_len i hil
      · have hieq : i = vl.length := by omega
        subst hieq
        rw [hgL]
        show (curState.set m.1 m.2).length = startState.length
        rw [List.length_set, ← hcs]
        exact hInv.states_len c hc
    · intro i hi x hx
      by_cases hil : i < vl.length
      · rw [hstate i hil] at hx; exact hInv.states_bound i hil x hx
      · have hieq : i = vl.length := by omega
        subst hieq
        rw [hgL] at hx
        rcases mem_set_cases_fb curState m.1 m.2 x hx with h1 | h1
        · rw [← hcs] at h1
          exact hInv.states_bound c hc x h1
        · rw [h1]; exact hm.2.1
    · intro i j hi hj he
      by_cases hil : i < vl.length
      · by_cases hjl : j < vl.length
        · rw [hstate i hil, hstate j hjl] at he
          exact hInv.states_nodup i j hil hjl he
        · have : j = vl.length := by omega
          subst this
          rw [hstate i hil, hgL] at he
          exact absurd he (hnotold i hil)
      · have hieq : i = vl.length := by omega
        subst hieq
        by_cases hjl : j < vl.length
        · rw [hgL, hstate j hjl] at he
          exact absurd he.symm (hnotold j hjl)
        · omega
    · intro i hi
      by_cases hil : i < vl.length
      · rw [hcol i hil]; exact hInv.colors i hil
      · have : i = vl.length := by omega
        subst this
        rw [hgL]
        intro hcon
        cases hcon
    · intro i hi
      by_cases hil : i < vl.length
      · exact chainOK_transfer (by omega) hil
          (fun k hk => ⟨hstate k hk, hdist k hk, hpredf k hk, hlmf k hk⟩)
          (hInv.chain i hil)
      · have : i = vl.length := by omega
        subst this
        constructor
        · intro h0
          exact absurd h0 (by omega)
        · intro _
          refine ⟨c, by omega, by rw [hgL], ?_, m.1, m.2, ?_, ?_, ?_⟩
          · rw [hgL, hdist c hc]
          · rw [hstate c hc, hcs]; exact hm
          · rw [hgL, hstate c hc, hcs]
          · rw [hgL, hstate c hc, hcs]
    · intro i hi hb mv hmv
      by_cases hil : i < vl.length
      · rw [hstate i hil] at hmv ⊢
        rw [hcol i hil] at hb
        rcases hInv.black_closed i hil hb mv hmv with ⟨j, hj, hsj⟩
        exact ⟨j, by omega, by rw [hstate j hj]; exact hsj⟩
      · have : i = vl.length := by omega
        subst this
        rw [hgL] at hb
        cases hb
    · have hsym1 := @edge_sym_append vl
        ({ vdefault with state := curState.set m.1 m.2 }) rfl
        hInv.edge_bound hInv.edge_sym
      have hsym2 := @edge_sym_addEdge2 (vl ++ [{ vdefault with state := curState.set m.1 m.2 }])
        c vl.length (by simp; omega) (by simp) hcne hsym1
      exact edge_sym_updateV_pres rfl hsym2
    · intro i hi e he
      by_cases hic : i = c
      · subst hic
        rw [hEc] at he
        rcases List.mem_cons.mp he with h1 | h1
        · omega
        · have := hInv.edge_bound i hc e h1
          omega
      · by_cases hil : i < vl.length
        · rw [hEo i hil hic] at he
          have := hInv.edge_bound i hil e he
          omega
        · have : i = vl.length := by omega
          subst this
          rw [hgL] at he
          rcases List.mem_cons.mp he with h1 | h1
          · omega
          · simp at h1
  · refine ⟨by omega, by rw [hcol c hc]; exact hQ.c_grey, ?_, ?_, ?_, ?_⟩
    · intro i hiq
      rcases List.mem_append.mp hiq with h1 | h1
      · have := hQ.q_lt i h1; omega
      · simp at h1; omega
    · intro i hiq
      rcases List.mem_append.mp hiq with h1 | h1
      · rw [hcol i (hQ.q_lt i h1)]; exact hQ.q_grey i h1
      · simp at h1
        subst h1
        rw [hgL]
    · have h1 : ((c :: q) ++ [vl.length]).Nodup := by
        rw [List.nodup_append]
        refine ⟨hQ.nodup, List.nodup_singleton _, ?_⟩
        intro x hx hx2
        simp at hx2
        subst hx2
        rcases List.mem_cons.mp hx with h2 | h2
        · omega
        · have := hQ.q_lt _ h2; omega
      rw [List.cons_append] at h1
      exact h1
    · intro i hi hg
      by_cases hil : i < vl.length
      · rw [hcol i hil] at hg
        rcases hQ.grey_mem i hil hg with h1 | h1
        · exact Or.inl h1
        · exact Or.inr (List.mem_append_left _ h1)
      · have : i = vl.length := by omega
        subst this
        exact Or.inr (List.mem_append_right _ (List.mem_singleton.mpr rfl))
  · rw [pmNewList]
    rw [blackCount_updateV_pres ?hpres]
    case hpres =>
      rw [hAL]
      constructor
      · intro h; cases h
      · intro h; cases h
    rw [addEdge, addEdge,
      blackCount_updateV_pres (by constructor <;> exact fun h => h),
      blackCount_updateV_pres (by constructor <;> exact fun h => h),
      blackCount_append]
    show blackCount vl + ((if VColor.white = VColor.black then 1 else 0) + 0) = blackCount vl
    simp
  · intro i hge hlt
    have : i = vl.length := by omega
    subst this
    rw [hgL]

theorem processMove_spec {numPegs : Nat} {startState : List Nat} {c : Nat}
    {curState : List Nat} {vl : List Vertex} {q : List Nat} {m : Nat × Nat}
    (hInv : InvCore numPegs startState vl) (hQ : QMid c vl q)
    (hcs : (getV vl c).state = curState)
    (hm : MoveOK numPegs curState m.1 m.2) :
    InvCore numPegs startState (processMove c curState (vl, q) m).1 ∧
    QMid c (processMove c curState (vl, q) m).1 (processMove c curState (vl, q) m).2 ∧
    vl.length ≤ (processMove c curState (vl, q) m).1.length ∧
    (∀ i, i < vl.length →
      fieldsEq (getV (processMove c curState (vl, q) m).1 i) (getV vl i)) ∧
    (∃ j, j < (processMove c curState (vl, q) m).1.length ∧
      (getV (processMove c curState (vl, q) m).1 j).state = curState.set m.1 m.2) ∧
    blackCount (processMove c curState (vl, q) m).1 = blackCount vl ∧
    (∀ i, vl.length ≤ i → i < (processMove c curState (vl, q) m).1.length →
      (getV (processMove c curState (vl, q) m).1 i).color = VColor.grey) := by
  have hnewne : curState.set m.1 m.2 ≠ curState :=
    set_ne_self_fb curState m.1 m.2 0 hm.1 hm.2.2.1
  cases hf : findVertexIdx vl (curState.set m.1 m.2) with
  | some n =>
    obtain ⟨hn, hns⟩ := findVertexIdx_some hf
    have hnw := hInv.colors n hn
    have hncc : n ≠ c := by
      intro he
      apply hnewne
      rw [← hns, he, hcs]
    rw [processMove_found hf hnw]
    obtain ⟨i1, i2, i3, i4, i5, i6⟩ := processMove_spec_found hInv hQ hn hns hncc (m := m)
    have hlen : (addEdge (addEdge vl c n) n c).length = vl.length := by
      rw [length_addEdge, length_addEdge]
    exact ⟨i1, i2, i3, i4, i5, i6, fun i hge hlt => by
      rw [hlen] at hlt
      omega⟩
  | none =>
    rw [processMove_new hf hQ.c_lt]
    exact processMove_spec_new hInv hQ hcs hm hf

theorem foldMoves_spec {numPegs : Nat} {startState : List Nat} {c : Nat}
    {curState : List Nat} :
    ∀ (ms : List (Nat × Nat)) (vl : List Vertex) (q : List Nat),
    InvCore numPegs startState vl → QMid c vl q →
    (getV vl c).state = curState →
    (∀ m ∈ ms, MoveOK numPegs curState m.1 m.2) →
    InvCore numPegs startState (ms.foldl (processMove c curState) (vl, q)).1 ∧
    QMid c (ms.foldl (processMove c curState) (vl, q)).1
      (ms.foldl (processMove c curState) (vl, q)).2 ∧
    vl.length ≤ (ms.foldl (processMove c curState) (vl, q)).1.length ∧
    (∀ i, i < vl.length →
      fieldsEq (getV (ms.foldl (processMove c curState) (vl, q)).1 i) (getV vl i)) ∧
    (∀ m ∈ ms, ∃ j, j < (ms.foldl (processMove c curState) (vl, q)).1.length ∧
      (getV (ms.foldl (processMove c curState) (vl, q)).1 j).state = curState.set m.1 m.2) ∧
    blackCount (ms.foldl (processMove c curState) (vl, q)).1 = blackCount vl ∧
    (∀ i, vl.length ≤ i → i < (ms.foldl (processMove c curState) (vl, q)).1.length →
      (getV (ms.foldl (processMove c curState) (vl, q)).1 i).color = VColor.grey) := by
  intro ms
  induction ms with
  | nil =>
    intro vl q hInv hQ hcs _
    refine ⟨hInv, hQ, le_refl _, fun i _ => fieldsEq_refl _, fun m hm => absurd hm (by simp),
      rfl, ?_⟩
    intro i hge hlt
    rw [show (List.foldl (processMove c curState) (vl, q) []).1 = vl from rfl] at hlt
    exact absurd hlt (by omega)
  | cons m rest ih =>
    intro vl q hInv hQ hcs hms
    have hm := hms m (List.mem_cons_self m rest)
    obtain ⟨p1, p2, p3, p4, p5, p6, p7⟩ := processMove_spec hInv hQ hcs hm
    have hcs1 : (getV (processMove c curState (vl, q) m).1 c).state = curState := by
      rw [(p4 c hQ.c_lt).1, hcs]
    have hrest : ∀ mv ∈ rest, MoveOK numPegs curState mv.1 mv.2 := fun mv hmv =>
      hms mv (List.mem_cons_of_mem m hmv)
    have hfold : (List.foldl (processMove c curState) (vl, q) (m :: rest))
        = (List.foldl (processMove c curState) (processMove c curState (vl, q) m) rest) := rfl
    rw [hfold]
    have hpair : processMove c curState (vl, q) m
        = ((processMove c curState (vl, q) m).1, (processMove c curState (vl, q) m).2) := rfl
    rw [hpair]
    obtain ⟨r1, r2, r3, r4, r5, r6, r7⟩ :=
      ih (processMove c curState (vl, q) m).1 (processMove c curState (vl, q) m).2 p1 p2 hcs1 hrest
    refine ⟨r1, r2, le_trans p3 r3, ?_, ?_, r6.trans p6, ?_⟩
    · intro i hi
      exact fieldsEq_trans (r4 i (by omega)) (p4 i hi)
    · intro mv hmv
      rcases List.mem_cons.mp hmv with h1 | h1
      · subst h1
        rcases p5 with ⟨j, hj, hsj⟩
        exact ⟨j, by omega, by rw [(r4 j hj).1]; exact hsj⟩
      · exact r5 mv h1
    · intro i hge hlt
      by_cases hmid : i < (processMove c curState (vl, q) m).1.length
      · rw [(r4 i hmid).2.2.2.2]
        exact p7 i hge hmid
      · exact r7 i (by omega) hlt

theorem exploreVertex_spec {numPegs : Nat} {startState : List Nat} {c : Nat}
    {vl : List Vertex} {q : List Nat}
    (hInv : InvCore numPegs startState vl) (hQ : QMid c vl q) :
    InvCore numPegs startState (exploreVertex numPegs c vl q).1 ∧
    QInv (exploreVertex numPegs c vl q).1 (exploreVertex numPegs c vl q).2 ∧
    vl.length ≤ (exploreVertex numPegs c vl q).1.length ∧
    c < (exploreVertex numPegs c vl q).1.length ∧
    (getV (exploreVertex numPegs c vl q).1 c).state = (getV vl c).state ∧
    (getV (exploreVertex numPegs c vl q).1 c).distance = (getV vl c).distance ∧
    blackCount (exploreVertex numPegs c vl q).1 = blackCount vl + 1 ∧
    (∀ es, NoGoalBlack es vl → (getV (exploreVertex numPegs c vl q).1 c).state ≠ es →
      NoGoalBlack es (exploreVertex numPegs c vl q).1) := by
  have hms : ∀ m ∈ neighborMoves numPegs (getV vl c).state,
      MoveOK numPegs (getV vl c).state m.1 m.2 := fun m hm => mem_neighborMoves.mp hm
  obtain ⟨f1, f2, f3, f4, f5, f6, f7⟩ :=
    foldMoves_spec (neighborMoves numPegs (getV vl c).state) vl q hInv hQ rfl hms
  set acc := (neighborMoves numPegs (getV vl c).state).foldl
    (processMove c (getV vl c).state) (vl, q) with hacc
  have hev1 : (exploreVertex numPegs c vl q).1 = setColor acc.1 c VColor.black := rfl
  have hev2 : (exploreVertex numPegs c vl q).2 = acc.2 := rfl
  rw [hev1, hev2]
  have hacl : c < acc.1.length := lt_of_lt_of_le hQ.c_lt f3
  have hlen : (setColor acc.1 c VColor.black).length = acc.1.length := length_setColor _ _ _
  have hNC := fun k => getV_setColor_fieldsNC acc.1 c VColor.black k
  have hccol : (getV (setColor acc.1 c VColor.black) c).color = VColor.black :=
    getV_setColor_color _ hacl
  have hcol_ne : ∀ k, k ≠ c →
      (getV (setColor acc.1 c VColor.black) k).color = (getV acc.1 k).color := by
    intro k hk
    rw [getV_setColor_ne _ hk]
  have hcnotq : c ∉ acc.2 := (List.nodup_cons.mp f2.nodup).1
  refine ⟨?_, ?_, by omega, by omega, ?_, ?_, ?_, ?_⟩
  · refine ⟨by omega, by rw [(hNC 0).1]; exact f1.start0,
      fun i hi => by rw [(hNC i).1]; exact f1.states_len i (by omega),
      fun i hi => by rw [(hNC i).1]; exact f1.states_bound i (by omega),
      fun i j hi hj he => f1.states_nodup i j (by omega) (by omega)
        (by rw [(hNC i).1, (hNC j).1] at he; exact he),
      ?_,
      fun i hi => chainOK_transfer (le_of_eq hlen.symm) (by omega)
        (fun k _ => ⟨(hNC k).1, (hNC k).2.1, (hNC k).2.2.1, (hNC k).2.2.2.1⟩)
        (f1.chain i (by omega)),
      ?_,
      ?_,
      fun i hi e he => by
        rw [hlen] at hi
        rw [(hNC i).2.2.2.2] at he
        have := f1.edge_bound i hi e he
        omega⟩
    · intro i hi
      by_cases hic : i = c
      · subst hic
        rw [hccol]
        intro hcon
        cases hcon
      · rw [hcol_ne i hic]
        exact f1.colors i (by omega)
    · intro i hi hb mv hmv
      rw [(hNC i).1] at hmv ⊢
      by_cases hic : i = c
      · subst hic
        have hstc : (getV acc.1 i).state = (getV vl i).state := (f4 i hQ.c_lt).1
        rw [hstc] at hmv ⊢
        rcases f5 mv hmv with ⟨j, hj, hsj⟩
        exact ⟨j, by omega, by rw [(hNC j).1]; exact hsj⟩
      · rw [hcol_ne i hic] at hb
        rcases f1.black_closed i (by omega) hb mv hmv with ⟨j, hj, hsj⟩
        exact ⟨j, by omega, by rw [(hNC j).1]; exact hsj⟩
    · exact @edge_sym_updateV_pres acc.1 c (fun v => { v with color := VColor.black })
        rfl f1.edge_sym
  · refine ⟨fun i hiq => by have := f2.q_lt i hiq; omega, ?_,
      (List.nodup_cons.mp f2.nodup).2, ?_⟩
    · intro i hiq
      have hic : i ≠ c := fun he => hcnotq (he ▸ hiq)
      rw [hcol_ne i hic]
      exact f2.q_grey i hiq
    · intro i hi hg
      by_cases hic : i = c
      · subst hic
        rw [hccol] at hg
        cases hg
      · rw [hcol_ne i hic] at hg
        rcases f2.grey_mem i (by omega) hg with h1 | h1
        · exact absurd h1 hic
        · exact h1
  · rw [(hNC c).1]
    exact (f4 c hQ.c_lt).1
  · rw [(hNC c).2.1]
    exact (f4 c hQ.c_lt).2.1
  · rw [blackCount_setColor_black hacl (by rw [f2.c_grey]; intro hcon; cases hcon), f6]
  · intro es hng hne i hi hb
    by_cases hic : i = c
    · subst hic
      exact hne
    · rw [hcol_ne i hic] at hb
      rw [(hNC i).1]
      by_cases hil : i < vl.length
      · rw [(f4 i hil).1]
        rw [(f4 i hil).2.2.2.2] at hb
        exact hng i hil hb
      · rw [f7 i (by omega) (by omega)] at hb
        cases hb

theorem qmid_of_qinv {vl : List Vertex} {c : Nat} {rest : List Nat}
    (hQ : QInv vl (c :: rest)) : QMid c vl rest :=
  ⟨hQ.q_lt c (List.mem_cons_self c rest), hQ.q_grey c (List.mem_cons_self c rest),
    fun i hi => hQ.q_lt i (List.mem_cons_of_mem c hi),
    fun i hi => hQ.q_grey i (List.mem_cons_of_mem c hi),
    hQ.nodup,
    fun i hil hg => List.mem_cons.mp (hQ.grey_mem i hil hg)⟩

theorem bfsLoop_cons (numPegs : Nat) (endState : List Nat) (fuel : Nat) (vl : List Vertex)
    (c : Nat) (rest : List Nat) :
    bfsLoop numPegs endState (fuel + 1) vl (c :: rest) =
      if (getV (exploreVertex numPegs c vl rest).1 c).state == endState
      then some ((getV (exploreVertex numPegs c vl rest).1 c).distance,
        (exploreVertex numPegs c vl rest).1)
      else bfsLoop numPegs endState fuel (exploreVertex numPegs c vl rest).1
        (exploreVertex numPegs c vl rest).2 := rfl

theorem bfsLoop_sound {numPegs : Nat} {startState endState : List Nat} :
    ∀ (fuel : Nat) (vl : List Vertex) (q : List Nat) (D : Nat) (vlF : List Vertex),
    InvCore numPegs startState vl → QInv vl q →
    bfsLoop numPegs endState fuel vl q = some (D, vlF) →
    InvCore numPegs startState vlF ∧
    ∃ g, g < vlF.length ∧ (getV vlF g).state = endState ∧ (getV vlF g).distance = D := by
  intro fuel
  induction fuel with
  | zero =>
    intro vl q D vlF _ _ h
    simp [bfsLoop] at h
  | succ f ih =>
    intro vl q D vlF hInv hQ h
    cases q with
    | nil => simp [bfsLoop] at h
    | cons c rest =>
      obtain ⟨e1, e2, e3, e4, e5, e6, e7, e8⟩ := exploreVertex_spec hInv (qmid_of_qinv hQ)
      rw [bfsLoop_cons] at h
      by_cases hgoal : ((getV (exploreVertex numPegs c vl rest).1 c).state == endState) = true
      · rw [if_pos hgoal] at h
        have hD : (getV (exploreVertex numPegs c vl rest).1 c).distance = D := by
          have := Option.some.inj h
          exact (Prod.mk.injEq _ _ _ _).mp this |>.1
        have hvl : (exploreVertex numPegs c vl rest).1 = vlF := by
          have := Option.some.inj h
          exact (Prod.mk.injEq _ _ _ _).mp this |>.2
        subst hvl
        exact ⟨e1, c, e4, beq_iff_eq.mp hgoal, hD⟩
      · rw [if_neg hgoal] at h
        exact ih _ _ D vlF e1 e2 h

theorem predIterOpt_succ (vl : List Vertex) (k idx j : Nat)
    (h : (getV vl idx).pred = some j) :
    predIterOpt vl (k + 1) idx = predIterOpt vl k j := by
  simp only [predIterOpt, h]

theorem reconstructOpt_succ (vl : List Vertex) (k idx j : Nat)
    (h : (getV vl idx).pred = some j) :
    reconstructOpt vl (k + 1) idx
      = (reconstructOpt vl k j).map (fun ms => ms ++ [(getV vl idx).lastMove]) := by
  simp only [reconstructOpt, h]

theorem chain_predIter {numPegs : Nat} {startState : List Nat} {vl : List Vertex}
    (hInv : InvCore numPegs startState vl) :
    ∀ k i, i < vl.length → (getV vl i).distance = k → predIterOpt vl k i = some 0 := by
  intro k
  induction k with
  | zero =>
    intro i hi hd
    by_cases h0 : i = 0
    · subst h0; rfl
    · rcases (hInv.chain i hi).2 h0 with ⟨j, hj, hpred, hdist, _⟩
      exact absurd hdist (by omega)
  | succ n ih =>
    intro i hi hd
    by_cases h0 : i = 0
    · exact absurd ((hInv.chain i hi).1 h0).2 (by rw [hd]; omega)
    · rcases (hInv.chain i hi).2 h0 with ⟨j, hj, hpred, hdist, _⟩
      rw [predIterOpt_succ vl n i j hpred]
      exact ih j hj (by omega)

theorem replay_append_some {s t : List Nat} {xs : List (Nat × Nat)}
    (h : replay s xs = some t) (ys : List (Nat × Nat)) :
    replay s (xs ++ ys) = replay t ys := by
  induction xs generalizing s with
  | nil =>
    have : s = t := Option.some.inj h
    subst this
    rfl
  | cons x xs ih =>
    rw [List.cons_append]
    show (match applyMove s x with
      | none => none
      | some s' => replay s' (xs ++ ys)) = replay t ys
    cases hap : applyMove s x with
    | none =>
      rw [show replay s (x :: xs) = (match applyMove s x with
        | none => none
        | some s' => replay s' xs) from rfl, hap] at h
      cases h
    | some u =>
      rw [show replay s (x :: xs) = (match applyMove s x with
        | none => none
        | some s' => replay s' xs) from rfl, hap] at h
      exact ih h

theorem firstIdxOn_eq : ∀ (s : List Nat) (d peg : Nat), d < s.length → s.getD d 0 = peg →
    (∀ i, i < d → s.getD i 0 ≠ peg) → firstIdxOn s peg = some d := by
  intro s
  induction s with
  | nil => intro d peg h _ _; simp at h
  | cons x rest ih =>
    intro d peg hd hgd hfirst
    cases d with
    | zero =>
      have hx : x = peg := hgd
      simp [firstIdxOn, hx]
    | succ n =>
      have hx : x ≠ peg := hfirst 0 (by omega)
      rw [show firstIdxOn (x :: rest) peg
        = (if x == peg then some 0 else (firstIdxOn rest peg).map (· + 1)) from rfl]
      rw [if_neg (by simpa using hx)]
      rw [ih n peg (by simp at hd; omega) hgd (fun i hi => hfirst (i + 1) (by omega))]
      rfl

theorem applyMove_of_moveOK {numPegs : Nat} {s : List Nat} {d p : Nat}
    (h : MoveOK numPegs s d p) :
    applyMove s (s.getD d 0 + 1, p + 1) = some (s.set d p) := by
  obtain ⟨hd, hp, hne, hsm, hpg⟩ := h
  have hfind : firstIdxOn s ((s.getD d 0 + 1) - 1) = some d := by
    rw [Nat.add_sub_cancel]
    exact firstIdxOn_eq s d (s.getD d 0) hd rfl (fun i hi he => hsm i hi he)
  show (match firstIdxOn s ((s.getD d 0 + 1) - 1) with
    | none => none
    | some e =>
      if ((p + 1) - 1) == ((s.getD d 0 + 1) - 1) || PegHasSmallerDisk s e ((p + 1) - 1)
      then none
      else some (s.set e ((p + 1) - 1))) = some (s.set d p)
  rw [hfind]
  show (if ((p + 1 - 1 == s.getD d 0 + 1 - 1) || PegHasSmallerDisk s d (p + 1 - 1)) = true
    then none else some (s.set d (p + 1 - 1))) = some (s.set d p)
  have h1 : (((p + 1) - 1) == ((s.getD d 0 + 1) - 1)) = false := by
    rw [Nat.add_sub_cancel, Nat.add_sub_cancel]
    exact beq_eq_false_iff_ne.mpr hne
  have h2 : PegHasSmallerDisk s d ((p + 1) - 1) = false := by
    rw [Nat.add_sub_cancel]
    rw [← Bool.not_eq_true]
    intro hcon
    rcases pegHasSmallerDisk_iff.mp hcon with ⟨i, hi, he⟩
    exact hpg i hi he
  rw [h1, h2]
  rw [if_neg (by simp)]
  rw [Nat.add_sub_cancel]

theorem chain_replay {numPegs : Nat} {startState : List Nat} {vl : List Vertex}
    (hInv : InvCore numPegs startState vl) :
    ∀ k i, i < vl.length → (getV vl i).distance = k →
    ∃ ms, reconstructOpt vl k i = some ms ∧ ms.length = k ∧
      replay startState ms = some (getV vl i).state := by
  intro k
  induction k with
  | zero =>
    intro i hi hd
    by_cases h0 : i = 0
    · subst h0
      exact ⟨[], rfl, rfl, by rw [hInv.start0]; rfl⟩
    · rcases (hInv.chain i hi).2 h0 with ⟨j, hj, hpred, hdist, _⟩
      exact absurd hdist (by omega)
  | succ n ih =>
    intro i hi hd
    by_cases h0 : i = 0
    · exact absurd ((hInv.chain i hi).1 h0).2 (by rw [hd]; omega)
    · rcases (hInv.chain i hi).2 h0 with ⟨j, hj, hpred, hdist, d, p, hmv, hst, hlm⟩
      rcases ih j hj (by omega) with ⟨ms, hrec, hlen, hrep⟩
      refine ⟨ms ++ [(getV vl i).lastMove], ?_, by simp [hlen], ?_⟩
      · rw [reconstructOpt_succ vl n i j hpred, hrec]
        rfl
      · rw [replay_append_some hrep]
        show (match applyMove (getV vl j).state (getV vl i).lastMove with
          | none => none
          | some s' => replay s' []) = some (getV vl i).state
        rw [hlm, applyMove_of_moveOK hmv]
        show some ((getV vl j).state.set d p) = some (getV vl i).state
        rw [hst]

theorem buildAndExplore_eq (numPegs fuel : Nat) (startState endState : List Nat) :
    BuildAndExplore numPegs fuel startState endState
      = bfsLoop numPegs endState fuel
        [⟨VColor.grey, 0, none, (0, 0), [], startState⟩] [0] := rfl

theorem initial_inv {numPegs : Nat} {startState : List Nat}
    (hbound : ∀ x ∈ startState, x < numPegs) :
    InvCore numPegs startState [⟨VColor.grey, 0, none, (0, 0), [], startState⟩] ∧
    QInv [⟨VColor.grey, 0, none, (0, 0), [], startState⟩] [0] := by
  have hE : ∀ k, (getV [(⟨VColor.grey, 0, none, (0, 0), [], startState⟩ : Vertex)] k).edges
      = [] := by
    intro k
    cases k with
    | zero => rfl
    | succ n =>
      rw [getV_cons_succ]
      rw [getV_oob (by simp)]
      rfl
  constructor
  · refine ⟨by simp, rfl, ?_, ?_, ?_, ?_, ?_, ?_, ?_, ?_⟩
    · intro i hi
      have : i = 0 := by simp at hi; omega
      subst this
      rfl
    · intro i hi x hx
      have : i = 0 := by simp at hi; omega
      subst this
      exact hbound x hx
    · intro i j hi hj _
      simp at hi hj
      omega
    · intro i hi
      have : i = 0 := by simp at hi; omega
      subst this
      intro hcon
      cases hcon
    · intro i hi
      have : i = 0 := by simp at hi; omega
      subst this
      exact ⟨fun _ => ⟨rfl, rfl⟩, fun hne => absurd rfl hne⟩
    · intro i hi hb
      have : i = 0 := by simp at hi; omega
      subst this
      cases hb
    · intro i j
      rw [hE i, hE j]
      rfl
    · intro i hi e he
      rw [hE i] at he
      cases he
  · refine ⟨?_, ?_, by simp, ?_⟩
    · intro i hi
      simp at hi
      subst hi
      simp
    · intro i hi
      simp at hi
      subst hi
      rfl
    · intro i hi _
      simp at hi
      subst hi
      simp

/-- Claim C4: when BuildAndExplore returns distance D, the
    predecessor chain from the goal vertex (found again by the
    GetVertex scan, as main does) has length exactly D: following D
    predecessor links lands on the start vertex (index 0, whose state
    is the start configuration), and the collected move list has
    exactly D moves. -/
theorem pred_chain_length (numPegs fuel D : Nat) (s t : List Nat)
    (vl : List Vertex) (hs : ∀ x ∈ s, x < numPegs)
    (h : BuildAndExplore numPegs fuel s t = some (D, vl)) :
    (getV vl 0).state = s ∧
    ∃ g, findVertexIdx vl t = some g ∧ predIterOpt vl D g = some 0 ∧
      ∃ ms, reconstructOpt vl D g = some ms ∧ ms.length = D := by
  rw [buildAndExplore_eq] at h
  obtain ⟨hI0, hQ0⟩ := initial_inv hs
  obtain ⟨hIF, g0, hg0, hst0, hd0⟩ := bfsLoop_sound fuel _ [0] D vl hI0 hQ0 h
  obtain ⟨g, hfind⟩ := findVertexIdx_isSome hg0 hst0
  obtain ⟨hg, hgs⟩ := findVertexIdx_some hfind
  have hgeq : g = g0 := hIF.states_nodup g g0 hg hg0 (by rw [hgs, hst0])
  subst hgeq
  have hdist : (getV vl g).distance = D := hd0
  obtain ⟨ms, hrec, hlen, _⟩ := chain_replay hIF D g hg hdist
  exact ⟨hIF.start0, g, hfind, chain_predIter hIF D g hg hdist, ms, hrec, hlen⟩

theorem pred_chain_length_witness :
    ∃ vl, BuildAndExplore 3 4 [0] [2] = some (1, vl) ∧
      ((getV vl 0).state = [0] ∧
        ∃ g, findVertexIdx vl [2] = some g ∧ predIterOpt vl 1 g = some 0 ∧
          ∃ ms, reconstructOpt vl 1 g = some ms ∧ ms.length = 1) :=
  ⟨_, rfl, pred_chain_length 3 4 1 [0] [2] _ (by decide) rfl⟩

/-- Claim C5: every move in the reconstructed path is legal (the
    moved disk is the topmost on its source peg and the destination
    holds no smaller disk; an illegal move would make the replay
    checker return none), and replaying the whole reconstructed
    sequence from the start configuration yields exactly the goal
    configuration. -/
theorem path_replays (numPegs fuel D : Nat) (s t : List Nat)
    (vl : List Vertex) (hs : ∀ x ∈ s, x < numPegs)
    (h : BuildAndExplore numPegs fuel s t = some (D, vl)) :
    ∃ g ms, findVertexIdx vl t = some g ∧ reconstructOpt vl D g = some ms ∧
      replay s ms = some t := by
  rw [buildAndExplore_eq] at h
  obtain ⟨hI0, hQ0⟩ := initial_inv hs
  obtain ⟨hIF, g0, hg0, hst0, hd0⟩ := bfsLoop_sound fuel _ [0] D vl hI0 hQ0 h
  obtain ⟨g, hfind⟩ := findVertexIdx_isSome hg0 hst0
  obtain ⟨hg, hgs⟩ := findVertexIdx_some hfind
  have hgeq : g = g0 := hIF.states_nodup g g0 hg hg0 (by rw [hgs, hst0])
  subst hgeq
  obtain ⟨ms, hrec, _, hrep⟩ := chain_replay hIF D g hg hd0
  exact ⟨g, ms, hfind, hrec, by rw [hrep, hgs]⟩

theorem path_replays_witness :
    ∃ vl, BuildAndExplore 3 4 [0] [2] = some (1, vl) ∧
      ∃ g ms, findVertexIdx vl [2] = some g ∧ reconstructOpt vl 1 g = some ms ∧
        replay [0] ms = some [2] :=
  ⟨_, rfl, path_replays 3 4 1 [0] [2] _ (by decide) rfl⟩

/-- Claim C6, amended: edges are recorded symmetrically with equal
    multiplicity on both endpoints (each traversal inserts one entry
    into each endpoint's list), but an edge may be recorded more than
    once over the search, since the code inserts the pair of entries
    on every traversal of the move, with no first-time check. -/
theorem edges_symmetric_pairs (numPegs fuel D : Nat) (s t : List Nat)
    (vl : List Vertex) (hs : ∀ x ∈ s, x < numPegs)
    (h : BuildAndExplore numPegs fuel s t = some (D, vl)) :
    ∀ i j, ((getV vl i).edges).count j = ((getV vl j).edges).count i := by
  rw [buildAndExplore_eq] at h
  obtain ⟨hI0, hQ0⟩ := initial_inv hs
  obtain ⟨hIF, _⟩ := bfsLoop_sound fuel _ [0] D vl hI0 hQ0 h
  exact hIF.edge_sym

theorem edges_symmetric_pairs_witness :
    ∃ vl, BuildAndExplore 3 4 [0] [2] = some (1, vl) ∧
      ∀ i j, ((getV vl i).edges).count j = ((getV vl j).edges).count i :=
  ⟨_, rfl, edges_symmetric_pairs 3 4 1 [0] [2] _ (by decide) rfl⟩

/-- Claim C8: searching from any valid configuration A to itself
    returns distance 0 (the start vertex, at distance 0, is dequeued
    first and already matches the goal) and the reconstructed path is
    empty. -/
theorem self_search_zero (numPegs fuel : Nat) (A : List Nat)
    (hf : 1 ≤ fuel) (hA : ∀ x ∈ A, x < numPegs) :
    ∃ vl, BuildAndExplore numPegs fuel A A = some (0, vl) ∧
      findVertexIdx vl A = some 0 ∧ reconstructOpt vl 0 0 = some [] := by
  obtain ⟨f, rfl⟩ : ∃ f, fuel = f + 1 := ⟨fuel - 1, by omega⟩
  rw [buildAndExplore_eq, bfsLoop_cons]
  obtain ⟨hI0, hQ0⟩ := initial_inv hA
  obtain ⟨e1, e2, e3, e4, e5, e6, e7, e8⟩ := exploreVertex_spec hI0 (qmid_of_qinv hQ0)
  have hst : (getV (exploreVertex numPegs 0
      [⟨VColor.grey, 0, none, (0, 0), [], A⟩] []).1 0).state = A := by
    rw [e5]
    rfl
  have hdz : (getV (exploreVertex numPegs 0
      [⟨VColor.grey, 0, none, (0, 0), [], A⟩] []).1 0).distance = 0 := by
    rw [e6]
    rfl
  rw [if_pos (beq_iff_eq.mpr hst), hdz]
  exact ⟨_, rfl, findVertexIdx_zero (by omega) hst, rfl⟩

theorem self_search_zero_witness :
    ∃ vl, BuildAndExplore 3 1 [0, 0] [0, 0] = some (0, vl) ∧
      findVertexIdx vl [0, 0] = some 0 ∧ reconstructOpt vl 0 0 = some [] :=
  self_search_zero 3 1 [0, 0] (by decide) (by decide)

theorem colorLE_trans {a b c : VColor} (h1 : colorLE a b) (h2 : colorLE b c) :
    colorLE a c := Nat.le_trans h1 h2

theorem colorLE_refl (a : VColor) : colorLE a a := Nat.le_refl _

theorem colorLE_of_eq {a b : VColor} (h : a = b) : colorLE a b := h ▸ colorLE_refl a

theorem processMove_found_white {c : Nat} {curState : List Nat} {vl : List Vertex}
    {q : List Nat} {m : Nat × Nat} {n : Nat}
    (hf : findVertexIdx vl (curState.set m.1 m.2) = some n)
    (hw : (getV vl n).color = VColor.white) :
    processMove c curState (vl, q) m =
      (updateV (addEdge (addEdge vl c n) n c) n
        (fun v => { v with
          pred := some c,
          distance := (getV (addEdge (addEdge vl c n) n c) c).distance + 1,
          color := VColor.grey,
          lastMove := (curState.getD m.1 0 + 1, m.2 + 1) }), q ++ [n]) := by
  have hcolor : (getV (addEdge (addEdge vl c n) n c) n).color = (getV vl n).color := by
    have h1 := (getV_addEdge_fieldsEq (addEdge vl c n) n c n).2.2.2.2
    have h2 := (getV_addEdge_fieldsEq vl c n n).2.2.2.2
    rw [h1, h2]
  simp only [processMove, getVertex, hf]
  rw [if_pos (by rw [hcolor]; exact hw)]

theorem pmNewList_fields {c : Nat} {curState : List Nat} {vl : List Vertex} {m : Nat × Nat}
    (i : Nat) (hi : i < vl.length) :
    fieldsEq (getV (pmNewList c curState vl m) i) (getV vl i) := by
  have h1 : getV (pmNewList c curState vl m) i
      = getV (addEdge (addEdge (vl ++ [{ vdefault with state := curState.set m.1 m.2 }]) c
        vl.length) vl.length c) i := by
    rw [pmNewList, getV_updateV_ne _ (by omega)]
  rw [h1]
  exact fieldsEq_trans
    (fieldsEq_trans (getV_addEdge_fieldsEq _ vl.length c i) (getV_addEdge_fieldsEq _ c vl.length i))
    (by rw [getV_append_lt _ hi]; exact fieldsEq_refl _)

theorem length_pmNewList (c : Nat) (curState : List Nat) (vl : List Vertex) (m : Nat × Nat) :
    (pmNewList c curState vl m).length = vl.length + 1 := by
  rw [pmNewList, length_updateV, length_addEdge, length_addEdge]
  simp

theorem processMove_fields_once {c : Nat} {curState : List Nat} {vl : List Vertex}
    {q : List Nat} {m : Nat × Nat} (hc : c < vl.length) :
    vl.length ≤ (processMove c curState (vl, q) m).1.length ∧
    (∀ i, i < vl.length →
      colorLE (getV vl i).color (getV (processMove c curState (vl, q) m).1 i).color) ∧
    (∀ i, i < vl.length → (getV vl i).color ≠ VColor.white →
      (getV (processMove c curState (vl, q) m).1 i).color = (getV vl i).color ∧
      (getV (processMove c curState (vl, q) m).1 i).distance = (getV vl i).distance ∧
      (getV (processMove c curState (vl, q) m).1 i).pred = (getV vl i).pred) ∧
    (∀ i, i < vl.length → (getV vl i).color = VColor.white →
      (getV (processMove c curState (vl, q) m).1 i).color ≠ VColor.white →
      (getV (processMove c curState (vl, q) m).1 i).color = VColor.grey ∧
      (getV (processMove c curState (vl, q) m).1 i).pred = some c ∧
      (getV (processMove c curState (vl, q) m).1 i).distance = (getV vl c).distance + 1) := by
  cases hf : findVertexIdx vl (curState.set m.1 m.2) with
  | none =>
    have hres : (processMove c curState (vl, q) m).1 = pmNewList c curState vl m := by
      rw [processMove_new hf hc]
    rw [hres]
    have hfe := fun (i : Nat) (hi : i < vl.length) =>
      @pmNewList_fields c curState vl m i hi
    refine ⟨by rw [length_pmNewList]; omega, ?_, ?_, ?_⟩
    · intro i hi
      exact colorLE_of_eq ((hfe i hi).2.2.2.2).symm
    · intro i hi _
      exact ⟨(hfe i hi).2.2.2.2, (hfe i hi).2.1, (hfe i hi).2.2.1⟩
    · intro i hi hwhite hnw
      rw [(hfe i hi).2.2.2.2] at hnw
      exact absurd hwhite hnw
  | some n =>
    obtain ⟨hn, _⟩ := findVertexIdx_some hf
    have hfe3 : ∀ k, fieldsEq (getV (addEdge (addEdge vl c n) n c) k) (getV vl k) := fun k =>
      fieldsEq_trans (getV_addEdge_fieldsEq _ n c k) (getV_addEdge_fieldsEq vl c n k)
    have hlen3 : (addEdge (addEdge vl c n) n c).length = vl.length := by
      rw [length_addEdge, length_addEdge]
    by_cases hw : (getV vl n).color = VColor.white
    · have hres : (processMove c curState (vl, q) m).1
          = updateV (addEdge (addEdge vl c n) n c) n
            (fun v => { v with
              pred := some c,
              distance := (getV (addEdge (addEdge vl c n) n c) c).distance + 1,
              color := VColor.grey,
              lastMove := (curState.getD m.1 0 + 1, m.2 + 1) }) := by
        rw [processMove_found_white hf hw]
      rw [hres]
      have hup : ∀ i, i ≠ n →
          getV (updateV (addEdge (addEdge vl c n) n c) n
            (fun v => { v with
              pred := some c,
              distance := (getV (addEdge (addEdge vl c n) n c) c).distance + 1,
              color := VColor.grey,
              lastMove := (curState.getD m.1 0 + 1, m.2 + 1) })) i
          = getV (addEdge (addEdge vl c n) n c) i := by
        intro i hi
        rw [getV_updateV_ne _ hi]
      have hupn : getV (updateV (addEdge (addEdge vl c n) n c) n
            (fun v => { v with
              pred := some c,
              distance := (getV (addEdge (addEdge vl c n) n c) c).distance + 1,
              color := VColor.grey,
              lastMove := (curState.getD m.1 0 + 1, m.2 + 1) })) n
          = { getV (addEdge (addEdge vl c n) n c) n with
              pred := some c,
              distance := (getV (addEdge (addEdge vl c n) n c) c).distance + 1,
              color := VColor.grey,
              lastMove := (curState.getD m.1 0 + 1, m.2 + 1) } := by
        rw [getV_updateV_self _ (by omega)]
      refine ⟨by rw [length_updateV]; omega, ?_, ?_, ?_⟩
      · intro i hi
        by_cases hin : i = n
        · subst hin
          rw [hupn, hw]
          exact Nat.zero_le _
        · rw [hup i hin]
          exact colorLE_of_eq ((hfe3 i).2.2.2.2).symm
      · intro i hi hnw
        by_cases hin : i = n
        · subst hin
          exact absurd hw hnw
        · rw [hup i hin]
          exact ⟨(hfe3 i).2.2.2.2, (hfe3 i).2.1, (hfe3 i).2.2.1⟩
      · intro i hi hwhite hnw
        by_cases hin : i = n
        · subst hin
          rw [hupn]
          refine ⟨rfl, rfl, ?_⟩
          show (getV (addEdge (addEdge vl c i) i c) c).distance + 1
            = (getV vl c).distance + 1
          rw [(hfe3 c).2.1]
        · rw [hup i hin] at hnw
          rw [(hfe3 i).2.2.2.2] at hnw
          exact absurd hwhite hnw
    · have hres : (processMove c curState (vl, q) m).1 = addEdge (addEdge vl c n) n c := by
        rw [processMove_found hf hw]
      rw [hres]
      refine ⟨by omega, ?_, ?_, ?_⟩
      · intro i hi
        exact colorLE_of_eq ((hfe3 i).2.2.2.2).symm
      · intro i hi _
        exact ⟨(hfe3 i).2.2.2.2, (hfe3 i).2.1, (hfe3 i).2.2.1⟩
      · intro i hi hwhite hnw
        rw [(hfe3 i).2.2.2.2] at hnw
        exact absurd hwhite hnw

theorem foldMoves_fields_once {c : Nat} {curState : List Nat} :
    ∀ (ms : List (Nat × Nat)) (vl : List Vertex) (q : List Nat),
    c < vl.length → (getV vl c).color ≠ VColor.white →
    vl.length ≤ (ms.foldl (processMove c curState) (vl, q)).1.length ∧
    (getV (ms.foldl (processMove c curState) (vl, q)).1 c).color = (getV vl c).color ∧
    (getV (ms.foldl (processMove c curState) (vl, q)).1 c).distance
      = (getV vl c).distance ∧
    (∀ i, i < vl.length →
      colorLE (getV vl i).color (getV (ms.foldl (processMove c curState) (vl, q)).1 i).color) ∧
    (∀ i, i < vl.length → (getV vl i).color ≠ VColor.white →
      (getV (ms.foldl (processMove c curState) (vl, q)).1 i).color = (getV vl i).color ∧
      (getV (ms.foldl (processMove c curState) (vl, q)).1 i).distance
        = (getV vl i).distance ∧
      (getV (ms.foldl (processMove c curState) (vl, q)).1 i).pred = (getV vl i).pred) ∧
    (∀ i, i < vl.length → (getV vl i).color = VColor.white →
      (getV (ms.foldl (processMove c curState) (vl, q)).1 i).color ≠ VColor.white →
      (getV (ms.foldl (processMove c curState) (vl, q)).1 i).color = VColor.grey ∧
      (getV (ms.foldl (processMove c curState) (vl, q)).1 i).pred = some c ∧
      (getV (ms.foldl (processMove c curState) (vl, q)).1 i).distance
        = (getV vl c).distance + 1) := by
  intro ms
  induction ms with
  | nil =>
    intro vl q hc hnw
    refine ⟨le_refl _, rfl, rfl, fun i _ => colorLE_refl _, fun i _ _ => ⟨rfl, rfl, rfl⟩, ?_⟩
    intro i hi hwhite hnw2
    exact absurd hwhite hnw2
  | cons m rest ih =>
    intro vl q hc hnw
    obtain ⟨s1, s2, s3, s4⟩ := @processMove_fields_once c curState vl q m hc
    have hfold : (List.foldl (processMove c curState) (vl, q) (m :: rest))
        = (List.foldl (processMove c curState) (processMove c curState (vl, q) m) rest) := rfl
    rw [hfold]
    have hpair : processMove c curState (vl, q) m
        = ((processMove c curState (vl, q) m).1, (processMove c curState (vl, q) m).2) := rfl
    rw [hpair]
    obtain ⟨hcc, hcd, hcp⟩ := s3 c hc hnw
    obtain ⟨r1, r2, r3, r4, r5, r6⟩ :=
      ih (processMove c curState (vl, q) m).1 (processMove c curState (vl, q) m).2
        (by omega) (by rw [hcc]; exact hnw)
    refine ⟨by omega, by rw [r2, hcc], by rw [r3, hcd], ?_, ?_, ?_⟩
    · intro i hi
      exact colorLE_trans (s2 i hi) (r4 i (by omega))
    · intro i hi hiw
      obtain ⟨a1, a2, a3⟩ := s3 i hi hiw
      obtain ⟨b1, b2, b3⟩ := r5 i (by omega) (by rw [a1]; exact hiw)
      exact ⟨by rw [b1, a1], by rw [b2, a2], by rw [b3, a3]⟩
    · intro i hi hwhite hnw2
      by_cases hmid : (getV (processMove c curState (vl, q) m).1 i).color = VColor.white
      · obtain ⟨b1, b2, b3⟩ := r6 i (by omega) hmid hnw2
        exact ⟨b1, b2, by rw [b3, hcd]⟩
      · obtain ⟨a1, a2, a3⟩ := s4 i hi hwhite hmid
        obtain ⟨b1, b2, b3⟩ := r5 i (by omega) (by rw [a1]; intro hcon; cases hcon)
        exact ⟨by rw [b1, a1], by rw [b3, a2], by rw [b2, a3]⟩

/-- Claim C7: over the processing of one dequeued (grey) vertex,
    every existing vertex's colour only advances in the order
    Unvisited, Frontier, Settled (never backward); the distance and
    predecessor of a vertex that has already left Unvisited never
    change; and a vertex that leaves Unvisited during the step does so
    by turning Frontier with its predecessor set to the dequeued
    vertex and its distance set to the dequeued vertex's distance plus
    one: the two fields are assigned exactly at that transition. -/
theorem fields_assigned_once (numPegs c : Nat) (vl : List Vertex) (q : List Nat)
    (hgrey : (getV vl c).color = VColor.grey) :
    (∀ i, i < vl.length →
      colorLE (getV vl i).color (getV (exploreVertex numPegs c vl q).1 i).color) ∧
    (∀ i, i < vl.length → (getV vl i).color ≠ VColor.white →
      (getV (exploreVertex numPegs c vl q).1 i).distance = (getV vl i).distance ∧
      (getV (exploreVertex numPegs c vl q).1 i).pred = (getV vl i).pred) ∧
    (∀ i, i < vl.length → (getV vl i).color = VColor.white →
      (getV (exploreVertex numPegs c vl q).1 i).color ≠ VColor.white →
      (getV (exploreVertex numPegs c vl q).1 i).color = VColor.grey ∧
      (getV (exploreVertex numPegs c vl q).1 i).pred = some c ∧
      (getV (exploreVertex numPegs c vl q).1 i).distance = (getV vl c).distance + 1) := by
  have hc : c < vl.length := by
    by_contra hcon
    rw [getV_oob (by omega)] at hgrey
    cases hgrey
  have hnw : (getV vl c).color ≠ VColor.white := by
    rw [hgrey]
    intro hcon
    cases hcon
  obtain ⟨r1, r2, r3, r4, r5, r6⟩ :=
    foldMoves_fields_once (neighborMoves numPegs (getV vl c).state) vl q hc hnw
  set acc := (neighborMoves numPegs (getV vl c).state).foldl
    (processMove c (getV vl c).state) (vl, q) with hacc
  have hev1 : (exploreVertex numPegs c vl q).1 = setColor acc.1 c VColor.black := rfl
  rw [hev1]
  have hNC := fun k => getV_setColor_fieldsNC acc.1 c VColor.black k
  have hccol : (getV (setColor acc.1 c VColor.black) c).color = VColor.black :=
    getV_setColor_color _ (by omega)
  have hcol_ne : ∀ k, k ≠ c →
      (getV (setColor acc.1 c VColor.black) k).color = (getV acc.1 k).color := by
    intro k hk
    rw [getV_setColor_ne _ hk]
  refine ⟨?_, ?_, ?_⟩
  · intro i hi
    by_cases hic : i = c
    · subst hic
      rw [hccol, hgrey]
      show colorRank VColor.grey ≤ colorRank VColor.black
      decide
    · rw [hcol_ne i hic]
      exact r4 i hi
  · intro i hi hiw
    obtain ⟨b1, b2, b3⟩ := r5 i hi hiw
    exact ⟨by rw [(hNC i).2.1, b2], by rw [(hNC i).2.2.1, b3]⟩
  · intro i hi hwhite hnw2
    have hic : i ≠ c := by
      intro he
      rw [he, hgrey] at hwhite
      cases hwhite
    rw [hcol_ne i hic] at hnw2 ⊢
    obtain ⟨b1, b2, b3⟩ := r6 i hi hwhite hnw2
    exact ⟨b1, by rw [(hNC i).2.2.1, b2], by rw [(hNC i).2.1, b3]⟩

theorem fields_assigned_once_witness :
    colorLE (getV sampleVL 1).color (getV (exploreVertex 3 0 sampleVL []).1 1).color ∧
    ((getV (exploreVertex 3 0 sampleVL []).1 0).distance = (getV sampleVL 0).distance ∧
      (getV (exploreVertex 3 0 sampleVL []).1 0).pred = (getV sampleVL 0).pred) ∧
    ((getV (exploreVertex 3 0 sampleVL []).1 1).color = VColor.grey ∧
      (getV (exploreVertex 3 0 sampleVL []).1 1).pred = some 0 ∧
      (getV (exploreVertex 3 0 sampleVL []).1 1).distance = (getV sampleVL 0).distance + 1) :=
  ⟨(fields_assigned_once 3 0 sampleVL [] (by decide)).1 1 (by decide),
   (fields_assigned_once 3 0 sampleVL [] (by decide)).2.1 0 (by decide) (by decide),
   (fields_assigned_once 3 0 sampleVL [] (by decide)).2.2 1 (by decide) (by decide) (by decide)⟩

theorem encodeS_lt {numPegs : Nat} : ∀ {s : List Nat}, (∀ x ∈ s, x < numPegs) →
    encodeS numPegs s < numPegs ^ s.length := by
  intro s
  induction s with
  | nil => intro _; simp [encodeS]
  | cons x xs ih =>
    intro hb
    have hx : x < numPegs := hb x (List.mem_cons_self x xs)
    have he : encodeS numPegs xs < numPegs ^ xs.length :=
      ih (fun y hy => hb y (List.mem_cons_of_mem x hy))
    show x + numPegs * encodeS numPegs xs < numPegs ^ (xs.length + 1)
    have h1 : numPegs * (encodeS numPegs xs + 1) ≤ numPegs * numPegs ^ xs.length :=
      Nat.mul_le_mul_left _ he
    have h2 : numPegs ^ (xs.length + 1) = numPegs * numPegs ^ xs.length := by ring
    rw [h2]
    calc x + numPegs * encodeS numPegs xs
        < numPegs + numPegs * encodeS numPegs xs := by omega
      _ = numPegs * (encodeS numPegs xs + 1) := by ring
      _ ≤ numPegs * numPegs ^ xs.length := h1

theorem encodeS_inj {numPegs : Nat} : ∀ {s t : List Nat}, s.length = t.length →
    (∀ x ∈ s, x < numPegs) → (∀ x ∈ t, x < numPegs) →
    encodeS numPegs s = encodeS numPegs t → s = t := by
  intro s
  induction s with
  | nil =>
    intro t hlen _ _ _
    cases t with
    | nil => rfl
    | cons y ys => simp at hlen
  | cons x xs ih =>
    intro t hlen hbs hbt he
    cases t with
    | nil => simp at hlen
    | cons y ys =>
      have hx : x < numPegs := hbs x (List.mem_cons_self x xs)
      have hy : y < numPegs := hbt y (List.mem_cons_self y ys)
      have h1 : x + numPegs * encodeS numPegs xs = y + numPegs * encodeS numPegs ys := he
      have hmx : (x + numPegs * encodeS numPegs xs) % numPegs = x := by
        rw [Nat.add_mul_mod_self_left, Nat.mod_eq_of_lt hx]
      have hmy : (y + numPegs * encodeS numPegs ys) % numPegs = y := by
        rw [Nat.add_mul_mod_self_left, Nat.mod_eq_of_lt hy]
      have hxy : x = y := by rw [← hmx, ← hmy, h1]
      have hP : 0 < numPegs := by omega
      have he2 : numPegs * encodeS numPegs xs = numPegs * encodeS numPegs ys := by omega
      have htail := Nat.eq_of_mul_eq_mul_left hP he2
      rw [hxy, ih (by simp at hlen; omega) (fun z hz => hbs z (List.mem_cons_of_mem x hz))
        (fun z hz => hbt z (List.mem_cons_of_mem y hz)) htail]

theorem length_le_numStates {numPegs : Nat} {startState : List Nat} {vl : List Vertex}
    (hInv : InvCore numPegs startState vl) : vl.length ≤ numPegs ^ startState.length := by
  have hmap : ((List.range vl.length).map
      (fun i => encodeS numPegs (getV vl i).state)).Nodup := by
    apply List.Nodup.map_on ?_ (List.nodup_range vl.length)
    intro i hi j hj he
    rw [List.mem_range] at hi hj
    exact hInv.states_nodup i j hi hj
      (encodeS_inj (by rw [hInv.states_len i hi, hInv.states_len j hj])
        (hInv.states_bound i hi) (hInv.states_bound j hj) he)
  have hsub : ((List.range vl.length).map
      (fun i => encodeS numPegs (getV vl i).state)).toFinset
      ⊆ Finset.range (numPegs ^ startState.length) := by
    intro x hx
    rw [List.mem_toFinset] at hx
    rcases List.mem_map.mp hx with ⟨i, hi, hxe⟩
    rw [List.mem_range] at hi
    rw [Finset.mem_range, ← hxe]
    have hlt := encodeS_lt (hInv.states_bound i hi)
    rw [hInv.states_len i hi] at hlt
    exact hlt
  have hcard := Finset.card_le_card hsub
  rw [List.toFinset_card_of_nodup hmap, Finset.card_range] at hcard
  simpa using hcard

theorem reach_present {numPegs : Nat} {startState : List Nat} {vl : List Vertex}
    (hInv : InvCore numPegs startState vl)
    (hall : ∀ i, i < vl.length → (getV vl i).color = VColor.black) :
    ∀ s t, Reaches numPegs s t → (∃ i, i < vl.length ∧ (getV vl i).state = s) →
      ∃ i, i < vl.length ∧ (getV vl i).state = t := by
  intro s t hreach
  induction hreach with
  | refl => exact fun h => h
  | tail h1 h2 ih =>
    intro hs
    rcases ih hs with ⟨i, hi, hsi⟩
    rcases h2 with ⟨d, p, hmv, hst⟩
    have hmem : (d, p) ∈ neighborMoves numPegs (getV vl i).state := by
      rw [hsi]
      exact mem_neighborMoves.mpr hmv
    rcases hInv.black_closed i hi (hall i hi) (d, p) hmem with ⟨j, hj, hsj⟩
    refine ⟨j, hj, ?_⟩
    rw [hsj, hsi, hst]

theorem bfs_no_fail {numPegs : Nat} {startState endState : List Nat} :
    ∀ (fuel : Nat) (vl : List Vertex) (q : List Nat),
    InvCore numPegs startState vl → QInv vl q → NoGoalBlack endState vl →
    Reaches numPegs startState endState →
    numPegs ^ startState.length + 1 ≤ blackCount vl + fuel →
    ∃ r, bfsLoop numPegs endState fuel vl q = some r := by
  intro fuel
  induction fuel with
  | zero =>
    intro vl q hInv _ _ _ hcount
    have h1 := blackCount_le_length vl
    have h2 := length_le_numStates hInv
    exact absurd hcount (by omega)
  | succ f ih =>
    intro vl q hInv hQ hNG hreach hcount
    cases q with
    | nil =>
      have hall : ∀ i, i < vl.length → (getV vl i).color = VColor.black := by
        intro i hi
        cases hcolor : (getV vl i).color with
        | white => exact absurd hcolor (hInv.colors i hi)
        | grey => exact absurd (hQ.grey_mem i hi hcolor) (List.not_mem_nil i)
        | black => rfl
      have hstart : ∃ i, i < vl.length ∧ (getV vl i).state = startState :=
        ⟨0, hInv.len_pos, hInv.start0⟩
      rcases reach_present hInv hall startState endState hreach hstart with ⟨g, hg, hgs⟩
      exact absurd hgs (hNG g hg (hall g hg))
    | cons c rest =>
      obtain ⟨e1, e2, e3, e4, e5, e6, e7, e8⟩ := exploreVertex_spec hInv (qmid_of_qinv hQ)
      rw [bfsLoop_cons]
      by_cases hgoal : ((getV (exploreVertex numPegs c vl rest).1 c).state == endState) = true
      · rw [if_pos hgoal]
        exact ⟨_, rfl⟩
      · rw [if_neg hgoal]
        have hne : (getV (exploreVertex numPegs c vl rest).1 c).state ≠ endState := by
          intro he
          exact hgoal (beq_iff_eq.mpr he)
        exact ih _ _ e1 e2 (e8 endState hNG hne) hreach (by omega)

theorem getD_mem_fb {α : Type} : ∀ (l : List α) (d : Nat) (x : α), d < l.length →
    l.getD d x ∈ l := by
  intro l
  induction l with
  | nil => intro d x h; simp at h
  | cons a t ih =>
    intro d x h
    cases d with
    | zero => exact List.mem_cons_self a t
    | succ n => exact List.mem_cons_of_mem a (ih n x (by simp at h; omega))

theorem step_append {numPegs : Nat} {a b : List Nat} (x : Nat)
    (h : Step numPegs a b) : Step numPegs (a ++ [x]) (b ++ [x]) := by
  rcases h with ⟨d, p, ⟨hd, hp, hne, hsm, hpg⟩, hst⟩
  refine ⟨d, p, ⟨by simp; omega, hp, ?_, ?_, ?_⟩, ?_⟩
  · rw [getD_append_left_fb a [x] d 0 hd]
    exact hne
  · intro i hi
    rw [getD_append_left_fb a [x] i 0 (by omega), getD_append_left_fb a [x] d 0 hd]
    exact hsm i hi
  · intro i hi
    rw [getD_append_left_fb a [x] i 0 (by omega)]
    exact hpg i hi
  · rw [set_append_left_fb a [x] d p hd, ← hst]

theorem reaches_append {numPegs : Nat} {a b : List Nat} (x : Nat)
    (h : Reaches numPegs a b) : Reaches numPegs (a ++ [x]) (b ++ [x]) := by
  induction h with
  | refl => exact Relation.ReflTransGen.refl
  | tail h1 h2 ih => exact Relation.ReflTransGen.tail ih (step_append x h2)

theorem step_bound {numPegs : Nat} {a b : List Nat} (hb : ∀ x ∈ a, x < numPegs)
    (h : Step numPegs a b) : ∀ x ∈ b, x < numPegs := by
  rcases h with ⟨d, p, ⟨_, hp, _, _, _⟩, hst⟩
  subst hst
  intro x hx
  rcases mem_set_cases_fb a d p x hx with h1 | h1
  · exact hb x h1
  · omega

theorem reaches_bound {numPegs : Nat} {a b : List Nat} (hb : ∀ x ∈ a, x < numPegs)
    (h : Reaches numPegs a b) : ∀ x ∈ b, x < numPegs := by
  induction h with
  | refl => exact hb
  | tail h1 h2 ih => exact step_bound ih h2

theorem step_symm {numPegs : Nat} {a b : List Nat} (hb : ∀ x ∈ a, x < numPegs)
    (h : Step numPegs a b) : Step numPegs b a := by
  rcases h with ⟨d, p, ⟨hd, hp, hne, hsm, hpg⟩, hst⟩
  subst hst
  refine ⟨d, a.getD d 0, ⟨by rw [List.length_set]; exact hd,
    hb (a.getD d 0) (getD_mem_fb a d 0 hd), ?_, ?_, ?_⟩, ?_⟩
  · rw [getD_set_self_fb a d p 0 hd]
    exact fun he => hne he.symm
  · intro i hi
    rw [getD_set_ne_fb a d i p 0 (by omega), getD_set_self_fb a d p 0 hd]
    exact hpg i hi
  · intro i hi
    rw [getD_set_ne_fb a d i p 0 (by omega)]
    exact hsm i hi
  · rw [List.set_set, set_getD_self_fb a d 0 hd]

theorem reaches_symm {numPegs : Nat} {a b : List Nat} (hb : ∀ x ∈ a, x < numPegs)
    (h : Reaches numPegs a b) : Reaches numPegs b a := by
  induction h with
  | refl => exact Relation.ReflTransGen.refl
  | tail h1 h2 ih =>
    exact Relation.ReflTransGen.trans
      (Relation.ReflTransGen.single (step_symm (reaches_bound hb h1) h2)) ih

theorem pick3 (a t numPegs : Nat) (hp : 3 ≤ numPegs) :
    ∃ w, w < numPegs ∧ w ≠ a ∧ w ≠ t := by
  refine ⟨if a ≠ 0 ∧ t ≠ 0 then 0 else if a ≠ 1 ∧ t ≠ 1 then 1 else 2, ?_, ?_, ?_⟩ <;>
    split_ifs <;> omega

theorem reach_replicate {numPegs : Nat} (hp : 3 ≤ numPegs) :
    ∀ (n : Nat) (s : List Nat), s.length = n → (∀ x ∈ s, x < numPegs) →
    ∀ t, t < numPegs → Reaches numPegs s (List.replicate n t) := by
  intro n
  induction n with
  | zero =>
    intro s hlen _ t _
    have hnil : s = [] := List.eq_nil_of_length_eq_zero hlen
    subst hnil
    exact Relation.ReflTransGen.refl
  | succ k ih =>
    intro s hlen hb t ht
    rcases List.eq_nil_or_concat s with hnil | ⟨as, a, hcat⟩
    · rw [hnil] at hlen
      simp at hlen
    · rw [List.concat_eq_append] at hcat
      subst hcat
      have hlen_as : as.length = k := by simp at hlen; omega
      have hb_as : ∀ x ∈ as, x < numPegs := fun x hx => hb x (List.mem_append_left _ hx)
      have hb_a : a < numPegs := hb a (List.mem_append_right _ (List.mem_singleton.mpr rfl))
      have hRlen : (List.replicate k (0 : Nat)).length = k := List.length_replicate k 0
      by_cases hat : a = t
      · subst hat
        have h1 : Reaches numPegs as (List.replicate k a) := ih as hlen_as hb_as a hb_a
        have h2 := reaches_append a h1
        rw [← List.replicate_succ'] at h2
        exact h2
      · rcases pick3 a t numPegs hp with ⟨w, hw, hwa, hwt⟩
        have hWlen : (List.replicate k w).length = k := List.length_replicate k w
        have h1 : Reaches numPegs (as ++ [a]) (List.replicate k w ++ [a]) :=
          reaches_append a (ih as hlen_as hb_as w hw)
        have hgetd : (List.replicate k w ++ [a]).getD k 0 = a := by
          have hg := getD_append_len_fb (List.replicate k w) a 0
          rw [hWlen] at hg
          exact hg
        have hsetk : (List.replicate k w ++ [a]).set k t = List.replicate k w ++ [t] := by
          have hg := set_append_len_fb (List.replicate k w) a t
          rw [hWlen] at hg
          exact hg
        have hbig : Step numPegs (List.replicate k w ++ [a]) (List.replicate k w ++ [t]) := by
          refine ⟨k, t, ⟨by simp, ht, ?_, ?_, ?_⟩, ?_⟩
          · rw [hgetd]
            exact fun he => hat he.symm
          · intro i hi
            rw [getD_append_left_fb _ [a] i 0 (by omega), hgetd,
              getD_replicate_fb k i w 0 hi]
            exact hwa
          · intro i hi
            rw [getD_append_left_fb _ [a] i 0 (by omega), getD_replicate_fb k i w 0 hi]
            exact hwt
          · rw [hsetk]
        have h2 : Reaches numPegs (List.replicate k w ++ [t]) (List.replicate k t ++ [t]) :=
          reaches_append t (ih (List.replicate k w) (List.length_replicate k w)
            (fun x hx => by rw [List.eq_of_mem_replicate hx]; exact hw) t ht)
        have hall := Relation.ReflTransGen.trans h1
          (Relation.ReflTransGen.trans (Relation.ReflTransGen.single hbig) h2)
        rw [← List.replicate_succ'] at hall
        exact hall

theorem hanoi_connected {numPegs : Nat} {s t : List Nat} (hp : 3 ≤ numPegs)
    (hlen : t.length = s.length) (hs : ∀ x ∈ s, x < numPegs)
    (ht : ∀ x ∈ t, x < numPegs) : Reaches numPegs s t := by
  have h1 : Reaches numPegs s (List.replicate s.length 0) :=
    reach_replicate hp s.length s rfl hs 0 (by omega)
  have h2 : Reaches numPegs t (List.replicate s.length 0) :=
    reach_replicate hp s.length t hlen ht 0 (by omega)
  exact Relation.ReflTransGen.trans h1 (reaches_symm ht h2)

/-- Claim C3: for every well-formed input (positive disk count, at
    least three pegs, both configurations of the same length with
    entries inside the peg range), the search finds the goal: with
    enough fuel (one more than the number of possible configurations,
    a bound the unbounded C++ loop always has available) BuildAndExplore
    returns some distance, so the BFS frontier never empties before
    the goal is settled and the fall-through path with no return value
    is unreachable. -/
theorem search_terminates (numPegs fuel : Nat) (s t : List Nat)
    (hp : 3 ≤ numPegs) (hn : 0 < s.length) (hlen : t.length = s.length)
    (hs : ∀ x ∈ s, x < numPegs) (ht : ∀ x ∈ t, x < numPegs)
    (hfuel : numPegs ^ s.length + 1 ≤ fuel) :
    ∃ D vl, BuildAndExplore numPegs fuel s t = some (D, vl) := by
  rw [buildAndExplore_eq]
  obtain ⟨hI0, hQ0⟩ := initial_inv hs
  have hNG : NoGoalBlack t [⟨VColor.grey, 0, none, (0, 0), [], s⟩] := by
    intro i hi hb
    have h0 : i = 0 := by simp at hi; omega
    subst h0
    cases hb
  have hbc : blackCount [(⟨VColor.grey, 0, none, (0, 0), [], s⟩ : Vertex)] = 0 := rfl
  rcases bfs_no_fail fuel _ [0] hI0 hQ0 hNG (hanoi_connected hp hlen hs ht)
    (by omega) with ⟨r, hr⟩
  exact ⟨r.1, r.2, hr⟩

theorem search_terminates_witness :
    ∃ D vl, BuildAndExplore 3 4 [0] [1] = some (D, vl) :=
  search_terminates 3 4 [0] [1] (by decide) (by decide) (by decide) (by decide)
    (by decide) (by decide)
/-- Claim C1: on the classic 3-peg instance (all disks on peg 0 to all
    disks on peg 2) BuildAndExplore returns distance 2 raised to N
    minus 1 for N = 1, 2, 3, 4. -/
theorem classic_hanoi_distances :
    ((BuildAndExplore 3 4 [0] [2]).map Prod.fst = some 1) ∧
    ((BuildAndExplore 3 10 [0, 0] [2, 2]).map Prod.fst = some 3) ∧
    ((BuildAndExplore 3 28 [0, 0, 0] [2, 2, 2]).map Prod.fst = some 7) ∧
    ((BuildAndExplore 3 82 [0, 0, 0, 0] [2, 2, 2, 2]).map Prod.fst = some 15) := by
  refine ⟨?_, ?_, ?_, ?_⟩ <;> decide

/-- Claim C6, counterexample: in the one-disk search from peg 0 to
    peg 2, the finished graph has the edge between vertex 0 (state
    with the disk on peg 0) and vertex 1 (disk on peg 1) recorded twice
    in vertex 0's edge list: the code records the edge on every
    traversal, so the claim that each edge is recorded at most once
    over the whole search is false. -/
theorem edge_recorded_twice :
    (BuildAndExplore 3 4 [0] [2]).map (fun r => ((getV r.2 0).edges).count 1) = some 2 := by
  decide

/-- Claim C9: main performs no input validation at all; on the
    malformed input numDisks = 0 (non-positive disk count, modelled by
    empty configurations) the search still runs to completion and the
    program prints a zero-length move list instead of rejecting the
    input before the search. -/
theorem no_input_validation : mainModel 3 1 [] [] = some (0, []) := by decide
